import Mathlib

/-!
A verification development for `cpp-simple-vector`.

Shallow embedding of `array_ptr.h` and `simple_vector.h`.

* A heap array `new T[n]` is the list of its `n` slots.  The null pointer is the
  empty list of slots: `ArrayPtr(size_t)` never allocates an array of length
  zero, so a pointer is null exactly when it owns no slot.
* `size_t` values are natural numbers: a size or a capacity counts the slots
  of an array that was allocated, so `capacity_ * 2` stays far below the word
  size.  Allocation is assumed to succeed.
* An access outside the allocated slots, or a standard algorithm applied to an
  iterator range whose first position lies after its last one, is undefined
  behaviour: the embedded operation returns `none`.
* Iterators are indices relative to `begin()`.
* An `ArrayPtr` is the only owner of its array, so a vector is first embedded
  as a value: its counters and the slots of its array.  Where the question is
  whether two vector objects share an array (copy assignment), the arrays are
  placed in a heap and an object holds an address (`Heap`, `VectorObj`,
  `Store`).
* What C++ leaves to the element type is a parameter (class `Element`): the
  value `T()`, the value of a slot created by `new T[n]`, and the state in
  which a move leaves its source.
-/

namespace SimpleVec

/-- What the container needs to know about the element type `T`. -/
class Element (T : Type) where
  /-- The value-initialised object `T()`. -/
  init : T
  /-- The content of a slot just created by `new T[n]` (default-initialised). -/
  fresh : T
  /-- The state in which `dst = std::move(src)` leaves `src`. -/
  moved : T → T

/-- The class `X` of `main.cpp`: a move-only wrapper of a `size_t`. -/
structure X where
  x_ : Nat
  deriving DecidableEq, Repr

/-- The member `X::GetX`. -/
def X.GetX (x : X) : Nat := x.x_

/-- `X()` delegates to `X(5)`; moving from an `X` sets its `x_` to `0`. -/
instance : Element X where
  init := ⟨5⟩
  fresh := ⟨5⟩
  moved := fun _ => ⟨0⟩

/-- The element type `int`: `int()` is `0`, a move is a copy, and a slot of
`new int[n]` holds an indeterminate value, here the parameter `junk`. -/
def intElement (junk : Int) : Element Int where
  init := 0
  fresh := junk
  moved := fun x => x

/-! ## `array_ptr.h` -/

/-- The class `ArrayPtr<T>`: `data_` points to the owned slots. -/
structure ArrayPtr (T : Type) where
  data_ : List T
  deriving DecidableEq, Repr

namespace ArrayPtr

variable {T : Type}

/-- The constructor `ArrayPtr() = default`: `data_ = nullptr`. -/
def null : ArrayPtr T := ⟨[]⟩

/-- The constructor `ArrayPtr(size_t size)`:
`data_ = (size == 0) ? nullptr : new T[size]`. -/
def alloc [Element T] (size : Nat) : ArrayPtr T :=
  ⟨if size = 0 then [] else List.replicate size Element.fresh⟩

/-- Number of slots of the owned allocation. -/
def slots (p : ArrayPtr T) : Nat := p.data_.length

/-- Reading `data_[index]` (`operator[]`). -/
def index (p : ArrayPtr T) (index : Nat) : Option T := p.data_[index]?

/-- The assignment `data_[index] = value`. -/
def assign (p : ArrayPtr T) (index : Nat) (value : T) : Option (ArrayPtr T) :=
  if index < p.data_.length then some ⟨p.data_.set index value⟩ else none

/-- The member `Swap`: exchanges the two pointers; returns (this, other). -/
def Swap (p other : ArrayPtr T) : ArrayPtr T × ArrayPtr T := (other, p)

end ArrayPtr

/-! ## The standard algorithms used by `simple_vector.h` -/

section Algorithms

variable {T : Type}

/-- Loop of `std::fill`: `n` assignments `p[i] = value`, `p[i+1] = value`, ... -/
def fill_loop (value : T) : ArrayPtr T → Nat → Nat → Option (ArrayPtr T)
  | p, _, 0 => some p
  | p, i, n + 1 => do
    let p1 ← p.assign i value
    fill_loop value p1 (i + 1) n

/-- The call `std::fill(p + first, p + last, value)`. -/
def std_fill (p : ArrayPtr T) (first last : Nat) (value : T) : Option (ArrayPtr T) :=
  if first ≤ last then fill_loop value p first (last - first) else none

/-- Loop of `std::copy` out of a list of values: `dst[j] = x` for each `x`. -/
def copy_list_loop : List T → ArrayPtr T → Nat → Option (ArrayPtr T)
  | [], dst, _ => some dst
  | x :: xs, dst, j => do
    let dst1 ← dst.assign j x
    copy_list_loop xs dst1 (j + 1)

/-- Loop of `std::copy` between two arrays: `n` assignments `dst[j] = src[i]`
with `i` and `j` increasing. -/
def copy_loop (src : ArrayPtr T) : ArrayPtr T → Nat → Nat → Nat → Option (ArrayPtr T)
  | dst, _, _, 0 => some dst
  | dst, i, j, n + 1 => do
    let x ← src.index i
    let dst1 ← dst.assign j x
    copy_loop src dst1 (i + 1) (j + 1) n

/-- The call `std::copy(src + first, src + last, dst + d_first)` between two
different arrays. -/
def std_copy (src : ArrayPtr T) (first last : Nat) (dst : ArrayPtr T) (d_first : Nat) :
    Option (ArrayPtr T) :=
  if first ≤ last then copy_loop src dst first d_first (last - first) else none

/-- Loop of `std::move` between two different arrays: `n` move assignments
`dst[j] = std::move(src[i])` with `i` and `j` increasing.  Returns the source
and the destination. -/
def move_loop [Element T] :
    ArrayPtr T → ArrayPtr T → Nat → Nat → Nat → Option (ArrayPtr T × ArrayPtr T)
  | src, dst, _, _, 0 => some (src, dst)
  | src, dst, i, j, n + 1 => do
    let x ← src.index i
    let dst1 ← dst.assign j x
    let src1 ← src.assign i (Element.moved x)
    move_loop src1 dst1 (i + 1) (j + 1) n

/-- The call `std::move(src + first, src + last, dst + d_first)` between two
different arrays. -/
def std_move [Element T] (src : ArrayPtr T) (first last : Nat) (dst : ArrayPtr T)
    (d_first : Nat) : Option (ArrayPtr T × ArrayPtr T) :=
  if first ≤ last then move_loop src dst first d_first (last - first) else none

/-- Loop of `std::move` inside one array: `n` move assignments
`p[j] = std::move(p[i])` with `i` and `j` increasing (`i ≠ j`). -/
def move_within_loop [Element T] : ArrayPtr T → Nat → Nat → Nat → Option (ArrayPtr T)
  | p, _, _, 0 => some p
  | p, i, j, n + 1 => do
    let x ← p.index i
    let p1 ← p.assign j x
    let p2 ← p1.assign i (Element.moved x)
    move_within_loop p2 (i + 1) (j + 1) n

/-- The call `std::move(p + first, p + last, p + d_first)` inside one array. -/
def std_move_within [Element T] (p : ArrayPtr T) (first last d_first : Nat) :
    Option (ArrayPtr T) :=
  if first ≤ last then move_within_loop p first d_first (last - first) else none

/-- Loop of `std::move_backward` inside one array: `n` move assignments
`*(--d_last) = std::move(*(--last))`. -/
def move_backward_loop [Element T] : ArrayPtr T → Nat → Nat → Nat → Option (ArrayPtr T)
  | p, _, _, 0 => some p
  | p, last, d_last, n + 1 =>
    if last = 0 ∨ d_last = 0 then none
    else do
      let x ← p.index (last - 1)
      let p1 ← p.assign (d_last - 1) x
      let p2 ← p1.assign (last - 1) (Element.moved x)
      move_backward_loop p2 (last - 1) (d_last - 1) n

/-- The call `std::move_backward(p + first, p + last, p + d_last)` inside one
array. -/
def std_move_backward [Element T] (p : ArrayPtr T) (first last d_last : Nat) :
    Option (ArrayPtr T) :=
  if first ≤ last then move_backward_loop p last d_last (last - first) else none

/-- Loop of the four-iterator `std::equal` once both ranges have the same
length: compares `a[i]` with `b[i]` until the first difference. -/
def equal_loop [DecidableEq T] (a b : ArrayPtr T) : Nat → Nat → Option Bool
  | _, 0 => some true
  | i, n + 1 => do
    let x ← a.index i
    let y ← b.index i
    if x = y then equal_loop a b (i + 1) n else some false

/-- The call `std::equal(a, a + n, b, b + m)` on random-access iterators: the
lengths are compared first. -/
def std_equal [DecidableEq T] (a : ArrayPtr T) (n : Nat) (b : ArrayPtr T) (m : Nat) :
    Option Bool :=
  if n = m then equal_loop a b 0 n else some false

/-- Loop of `std::lexicographical_compare`, both ranges read from the same
offset `i`, with `n` and `m` elements left: while both ranges have an element,
`a[i] < b[i]` returns `true` and `b[i] < a[i]` returns `false`; at the end of
a range the result is `(first1 == last1) && (first2 != last2)`. -/
def lexicographical_compare_loop [LT T] [∀ x y : T, Decidable (x < y)]
    (a b : ArrayPtr T) : Nat → Nat → Nat → Option Bool
  | _, 0, m => some (decide (m ≠ 0))
  | _, _ + 1, 0 => some false
  | i, n + 1, m + 1 => do
    let x ← a.index i
    let y ← b.index i
    if x < y then some true
    else if y < x then some false
    else lexicographical_compare_loop a b (i + 1) n m

/-- The call `std::lexicographical_compare(a, a + n, b, b + m)`. -/
def std_lexicographical_compare [LT T] [∀ x y : T, Decidable (x < y)]
    (a : ArrayPtr T) (n : Nat) (b : ArrayPtr T) (m : Nat) : Option Bool :=
  lexicographical_compare_loop a b 0 n m

/-- Both `f i` and `g i` are elements and the first is less than the second. -/
def ltAt [LT T] (f g : Nat → Option T) (i : Nat) : Prop :=
  ∃ x y, f i = some x ∧ g i = some y ∧ x < y

/-- Both `f i` and `g i` are elements and they are equivalent: neither is
less than the other. -/
def equivAt [LT T] (f g : Nat → Option T) (i : Nat) : Prop :=
  ∃ x y, f i = some x ∧ g i = some y ∧ ¬ x < y ∧ ¬ y < x

/-- The lexicographic order in words, for a sequence `f` of `n` elements and
a sequence `g` of `m` elements: either at some index below both lengths the
element of `f` is less and all earlier elements are equivalent, or `f` is
shorter and equivalent to the beginning of `g`. -/
def LexLess [LT T] (f g : Nat → Option T) (n m : Nat) : Prop :=
  (∃ i, i < min n m ∧ (∀ j, j < i → equivAt f g j) ∧ ltAt f g i) ∨
  (n < m ∧ ∀ j, j < n → equivAt f g j)

/-- The result of `std::lexicographical_compare` on two sequences of values. -/
def lexLt [LT T] [∀ x y : T, Decidable (x < y)] : List T → List T → Bool
  | [], [] => false
  | [], _ :: _ => true
  | _ :: _, [] => false
  | x :: xs, y :: ys =>
    if x < y then true else if y < x then false else lexLt xs ys

end Algorithms

/-! ## `simple_vector.h` -/

/-- The class `ReserveProxy`. -/
structure ReserveProxy where
  capacity_ : Nat
  deriving DecidableEq, Repr

/-- The member `ReserveProxy::GetCapacity`. -/
def ReserveProxy.GetCapacity (proxy : ReserveProxy) : Nat := proxy.capacity_

/-- The free function `Reserve(size_t capacity)`. -/
def Reserve (capacity : Nat) : ReserveProxy := ⟨capacity⟩

/-- The class `SimpleVector<T>`. -/
structure SimpleVector (T : Type) where
  size_ : Nat
  capacity_ : Nat
  data_ : ArrayPtr T
  deriving DecidableEq, Repr

/-- The exception `std::out_of_range`. -/
inductive Exception where
  | out_of_range
  deriving DecidableEq, Repr

namespace SimpleVector

variable {T : Type}

/-- The constructor `SimpleVector() noexcept = default`. -/
def ctor_default : SimpleVector T := ⟨0, 0, ArrayPtr.null⟩

/-- The constructor `SimpleVector(size_t size)`. -/
def ctor_size [Element T] (size : Nat) : Option (SimpleVector T) := do
  let data ← std_fill (ArrayPtr.alloc size) 0 size Element.init
  some ⟨size, size, data⟩

/-- The constructor `SimpleVector(size_t size, const T& value)`. -/
def ctor_fill [Element T] (size : Nat) (value : T) : Option (SimpleVector T) := do
  let data ← std_fill (ArrayPtr.alloc size) 0 size value
  some ⟨size, size, data⟩

/-- The constructor `SimpleVector(std::initializer_list<T> init)`. -/
def ctor_init_list [Element T] (init : List T) : Option (SimpleVector T) := do
  let data ← copy_list_loop init (ArrayPtr.alloc init.length) 0
  some ⟨init.length, init.length, data⟩

/-- The copy constructor `SimpleVector(const SimpleVector& other)`: the members
are initialised with `other.size_`, `other.capacity_` and an array of
`other.size_` slots, then `size_` elements are copied. -/
def ctor_copy [Element T] (other : SimpleVector T) : Option (SimpleVector T) := do
  let data ← std_copy other.data_ 0 other.size_ (ArrayPtr.alloc other.size_) 0
  some ⟨other.size_, other.capacity_, data⟩

/-- The member `Swap`; returns (this, other). -/
def Swap (v other : SimpleVector T) : SimpleVector T × SimpleVector T :=
  let d := v.data_.Swap other.data_
  (⟨other.size_, other.capacity_, d.1⟩, ⟨v.size_, v.capacity_, d.2⟩)

/-- The copy assignment `operator=(const SimpleVector& other)` for
`this != &other`: copy into a temporary, swap, destroy the temporary.  Returns
this. -/
def assign_copy [Element T] (v other : SimpleVector T) : Option (SimpleVector T) := do
  let temp ← ctor_copy other
  some (v.Swap temp).1

/-- The move constructor `SimpleVector(SimpleVector&& other)`: the members are
default-initialised, then swapped with `other`.  Returns (this, other). -/
def ctor_move (other : SimpleVector T) : SimpleVector T × SimpleVector T :=
  (ctor_default : SimpleVector T).Swap other

/-- The move assignment `operator=(SimpleVector&& other)` for `this != &other`.
Returns (this, other). -/
def assign_move (v other : SimpleVector T) : SimpleVector T × SimpleVector T :=
  let d := v.data_.Swap other.data_
  (⟨other.size_, other.capacity_, d.1⟩, ⟨0, 0, d.2⟩)

/-- The member `Reserve`. -/
def Reserve [Element T] (v : SimpleVector T) (new_capacity : Nat) :
    Option (SimpleVector T) :=
  if new_capacity > v.capacity_ then do
    let r ← std_move v.data_ 0 v.size_ (ArrayPtr.alloc new_capacity) 0
    let d := v.data_.Swap r.2
    some ⟨v.size_, new_capacity, d.1⟩
  else some v

/-- The constructor `SimpleVector(ReserveProxy proxy)`. -/
def ctor_reserve [Element T] (proxy : ReserveProxy) : Option (SimpleVector T) :=
  (ctor_default : SimpleVector T).Reserve proxy.GetCapacity

/-- The member `Size`. -/
def Size (v : SimpleVector T) : Nat := v.size_

/-- The member `Capacity`. -/
def Capacity (v : SimpleVector T) : Nat := v.capacity_

/-- The member `IsEmpty`. -/
def IsEmpty (v : SimpleVector T) : Bool := v.size_ == 0

/-- The unchecked access `operator[]`. -/
def Index (v : SimpleVector T) (index : Nat) : Option T := v.data_.index index

/-- The checked access `At`: `none` is undefined behaviour, `some (.error _)` a
thrown exception. -/
def At (v : SimpleVector T) (index : Nat) : Option (Except Exception T) :=
  if index ≥ v.size_ then some (.error .out_of_range)
  else (v.data_.index index).map .ok

/-- The member `Clear`. -/
def Clear (v : SimpleVector T) : SimpleVector T := { v with size_ := 0 }

/-- The member `Resize`. -/
def Resize [Element T] (v : SimpleVector T) (new_size : Nat) : Option (SimpleVector T) := do
  let v1 ← (if new_size > v.capacity_ then v.Reserve new_size else some v)
  let data ← fill_loop Element.init v1.data_ v1.size_ (new_size - v1.size_)
  some { v1 with data_ := data, size_ := new_size }

/-- The member `PushBack`. -/
def PushBack [Element T] (v : SimpleVector T) (value : T) : Option (SimpleVector T) := do
  let v1 ← (if v.size_ = v.capacity_ then
      v.Reserve (if v.capacity_ = 0 then 1 else v.capacity_ * 2)
    else some v)
  let data ← v1.data_.assign v1.size_ value
  some { v1 with data_ := data, size_ := v1.size_ + 1 }

/-- The member `Insert`; `index` is `pos - begin()`.  Returns the index of the
returned iterator and the vector. -/
def Insert [Element T] (v : SimpleVector T) (index : Nat) (value : T) :
    Option (Nat × SimpleVector T) := do
  let v1 ← (if v.size_ = v.capacity_ then
      v.Reserve (if v.capacity_ = 0 then 1 else v.capacity_ * 2)
    else some v)
  let d1 ← std_move_backward v1.data_ index v1.size_ (v1.size_ + 1)
  let d2 ← d1.assign index value
  some (index, { v1 with data_ := d2, size_ := v1.size_ + 1 })

/-- The member `PopBack`. -/
def PopBack (v : SimpleVector T) : SimpleVector T :=
  if v.size_ > 0 then { v with size_ := v.size_ - 1 } else v

/-- The member `Erase`; `index` is `pos - begin()`.  Returns the index of the
returned iterator and the vector. -/
def Erase [Element T] (v : SimpleVector T) (index : Nat) :
    Option (Nat × SimpleVector T) := do
  let d ← std_move_within v.data_ (index + 1) v.size_ index
  some (index, { v with data_ := d, size_ := v.size_ - 1 })

/-- The operator `==`. -/
def eq [DecidableEq T] (lhs rhs : SimpleVector T) : Option Bool :=
  std_equal lhs.data_ lhs.size_ rhs.data_ rhs.size_

/-- The operator `!=`. -/
def ne [DecidableEq T] (lhs rhs : SimpleVector T) : Option Bool :=
  (lhs.eq rhs).map not

/-- The operator `<`. -/
def lt [LT T] [∀ x y : T, Decidable (x < y)] (lhs rhs : SimpleVector T) : Option Bool :=
  std_lexicographical_compare lhs.data_ lhs.size_ rhs.data_ rhs.size_

/-- The operator `<=`: `(lhs < rhs) || (lhs == rhs)`, the right operand of
`||` evaluated only when the left one is false. -/
def le [LT T] [∀ x y : T, Decidable (x < y)] [DecidableEq T] (lhs rhs : SimpleVector T) :
    Option Bool := do
  let l ← lhs.lt rhs
  if l then some true else lhs.eq rhs

/-- The operator `>`: `rhs < lhs`. -/
def gt [LT T] [∀ x y : T, Decidable (x < y)] (lhs rhs : SimpleVector T) : Option Bool :=
  rhs.lt lhs

/-- The operator `>=`: `(lhs > rhs) || (lhs == rhs)`. -/
def ge [LT T] [∀ x y : T, Decidable (x < y)] [DecidableEq T] (lhs rhs : SimpleVector T) :
    Option Bool := do
  let g ← lhs.gt rhs
  if g then some true else lhs.eq rhs

/-- A run of `PushBack` calls, one per value, in order (the loops of
`main.cpp`). -/
def PushBackAll [Element T] : SimpleVector T → List T → Option (SimpleVector T)
  | v, [] => some v
  | v, x :: xs => do
    let v1 ← v.PushBack x
    PushBackAll v1 xs

/-- The live elements: the range from `begin()` to `end()`. -/
def toList (v : SimpleVector T) : List T := v.data_.data_.take v.size_

/-- The data model of the container: the size is at most the capacity, and
the capacity at most the number of allocated slots. -/
def Inv (v : SimpleVector T) : Prop :=
  v.size_ ≤ v.capacity_ ∧ v.capacity_ ≤ v.data_.slots

instance (v : SimpleVector T) : Decidable v.Inv :=
  inferInstanceAs (Decidable (v.size_ ≤ v.capacity_ ∧ v.capacity_ ≤ v.data_.slots))

/-- The states a program can build: the results of the constructors, closed
under the public operations that change a vector.  An operation that is
undefined on a state (it returns `none`) leads nowhere. -/
inductive Reachable [Element T] : SimpleVector T → Prop
  | default : Reachable ctor_default
  | sized (n : Nat) (v : SimpleVector T) : ctor_size n = some v → Reachable v
  | filled (n : Nat) (x : T) (v : SimpleVector T) : ctor_fill n x = some v → Reachable v
  | init_list (l : List T) (v : SimpleVector T) : ctor_init_list l = some v → Reachable v
  | reserve_hint (n : Nat) (v : SimpleVector T) :
      ctor_reserve (SimpleVec.Reserve n) = some v → Reachable v
  | copy (o v : SimpleVector T) : Reachable o → ctor_copy o = some v → Reachable v
  | move_target (o : SimpleVector T) : Reachable o → Reachable (ctor_move o).1
  | move_source (o : SimpleVector T) : Reachable o → Reachable (ctor_move o).2
  | copy_assign (v o w : SimpleVector T) :
      Reachable v → Reachable o → v.assign_copy o = some w → Reachable w
  | move_assign_target (v o : SimpleVector T) :
      Reachable v → Reachable o → Reachable (v.assign_move o).1
  | move_assign_source (v o : SimpleVector T) :
      Reachable v → Reachable o → Reachable (v.assign_move o).2
  | reserve (v : SimpleVector T) (n : Nat) (w : SimpleVector T) :
      Reachable v → v.Reserve n = some w → Reachable w
  | resize (v : SimpleVector T) (n : Nat) (w : SimpleVector T) :
      Reachable v → v.Resize n = some w → Reachable w
  | push_back (v : SimpleVector T) (x : T) (w : SimpleVector T) :
      Reachable v → v.PushBack x = some w → Reachable w
  | insert (v : SimpleVector T) (k : Nat) (x : T) (w : SimpleVector T) :
      Reachable v → v.Insert k x = some (k, w) → Reachable w
  | pop_back (v : SimpleVector T) : Reachable v → Reachable v.PopBack
  | erase (v : SimpleVector T) (k : Nat) (w : SimpleVector T) :
      Reachable v → v.Erase k = some (k, w) → Reachable w
  | clear (v : SimpleVector T) : Reachable v → Reachable v.Clear
  | swap_left (v o : SimpleVector T) : Reachable v → Reachable o → Reachable (v.Swap o).1
  | swap_right (v o : SimpleVector T) : Reachable v → Reachable o → Reachable (v.Swap o).2

end SimpleVector

/-! ## Vector objects in memory

To speak of two vectors that could share an array, the arrays are placed in a
heap and a vector object holds the address of its array.  The algorithms that
work on the slots of one array are the ones defined above. -/

/-- The heap: the arrays created by `new T[n]`, by address; an array that was
freed by `delete[]` is `none`. -/
abbrev Heap (T : Type) := List (Option (List T))

namespace Heap

variable {T : Type}

/-- The constructor `ArrayPtr(size_t size)` in memory:
`(size == 0) ? nullptr : new T[size]`.  Returns the heap and the pointer; the
null pointer is `none`. -/
def alloc [Element T] (h : Heap T) (size : Nat) : Heap T × Option Nat :=
  if size = 0 then (h, none)
  else (h ++ [some (List.replicate size Element.fresh)], some h.length)

/-- The slots a pointer gives access to: none for the null pointer; a pointer
to no array or to a freed array cannot be used. -/
def load (h : Heap T) (p : Option Nat) : Option (ArrayPtr T) :=
  match p with
  | none => some ⟨[]⟩
  | some a =>
    match h[a]? with
    | some (some l) => some ⟨l⟩
    | _ => none

/-- Writing back the slots a pointer gives access to. -/
def store (h : Heap T) (p : Option Nat) (arr : ArrayPtr T) : Option (Heap T) :=
  match p with
  | none => some h
  | some a =>
    match h[a]? with
    | some (some _) => some (h.set a (some arr.data_))
    | _ => none

/-- The statement `delete[] p`: nothing for the null pointer. -/
def delete (h : Heap T) (p : Option Nat) : Option (Heap T) :=
  match p with
  | none => some h
  | some a =>
    match h[a]? with
    | some (some _) => some (h.set a none)
    | _ => none

/-- An algorithm `f` run on the slots of the array at `p`. -/
def modify (h : Heap T) (p : Option Nat) (f : ArrayPtr T → Option (ArrayPtr T)) :
    Option (Heap T) := do
  let arr ← h.load p
  let arr2 ← f arr
  h.store p arr2

end Heap

/-- A `SimpleVector<T>` object in memory: its members, `data_` being the
pointer held by the `ArrayPtr` member. -/
structure VectorObj where
  size_ : Nat
  capacity_ : Nat
  data_ : Option Nat
  deriving DecidableEq, Repr

namespace VectorObj

variable {T : Type}

/-- The copy constructor `SimpleVector(const SimpleVector& other)` in memory:
a new array of `other.size_` slots, filled by `std::copy`. -/
def ctor_copy [Element T] (h : Heap T) (other : VectorObj) :
    Option (Heap T × VectorObj) := do
  let r := h.alloc other.size_
  let src ← r.1.load other.data_
  let dst ← r.1.load r.2
  let d ← std_copy src 0 other.size_ dst 0
  let h2 ← r.1.store r.2 d
  some (h2, ⟨other.size_, other.capacity_, r.2⟩)

/-- The member `Swap` in memory: the pointers and the counters are exchanged;
returns (this, other). -/
def Swap (o other : VectorObj) : VectorObj × VectorObj :=
  (⟨other.size_, other.capacity_, other.data_⟩, ⟨o.size_, o.capacity_, o.data_⟩)

/-- The destructor: `~ArrayPtr` runs `delete[] data_`. -/
def destroy (h : Heap T) (o : VectorObj) : Option (Heap T) := h.delete o.data_

/-- The member `Reserve` in memory: a new array, the elements moved into it,
the pointers swapped, and the old array freed by the destructor of
`new_data`. -/
def Reserve [Element T] (h : Heap T) (o : VectorObj) (new_capacity : Nat) :
    Option (Heap T × VectorObj) :=
  if new_capacity > o.capacity_ then do
    let r := h.alloc new_capacity
    let src ← r.1.load o.data_
    let dst ← r.1.load r.2
    let m ← std_move src 0 o.size_ dst 0
    let h1 ← r.1.store o.data_ m.1
    let h2 ← h1.store r.2 m.2
    let h3 ← h2.delete o.data_
    some (h3, ⟨o.size_, new_capacity, r.2⟩)
  else some (h, o)

/-- The member `Clear` in memory. -/
def Clear (o : VectorObj) : VectorObj := { o with size_ := 0 }

/-- The member `PopBack` in memory. -/
def PopBack (o : VectorObj) : VectorObj :=
  if o.size_ > 0 then { o with size_ := o.size_ - 1 } else o

/-- The member `Resize` in memory. -/
def Resize [Element T] (h : Heap T) (o : VectorObj) (new_size : Nat) :
    Option (Heap T × VectorObj) := do
  let r ← (if new_size > o.capacity_ then Reserve h o new_size else some (h, o))
  let h1 ← r.1.modify r.2.data_ fun d =>
    fill_loop Element.init d r.2.size_ (new_size - r.2.size_)
  some (h1, { r.2 with size_ := new_size })

/-- The member `PushBack` in memory. -/
def PushBack [Element T] (h : Heap T) (o : VectorObj) (value : T) :
    Option (Heap T × VectorObj) := do
  let r ← (if o.size_ = o.capacity_ then
      Reserve h o (if o.capacity_ = 0 then 1 else o.capacity_ * 2)
    else some (h, o))
  let h1 ← r.1.modify r.2.data_ fun d => d.assign r.2.size_ value
  some (h1, { r.2 with size_ := r.2.size_ + 1 })

/-- The member `Insert` in memory; the returned iterator is left out. -/
def Insert [Element T] (h : Heap T) (o : VectorObj) (index : Nat) (value : T) :
    Option (Heap T × VectorObj) := do
  let r ← (if o.size_ = o.capacity_ then
      Reserve h o (if o.capacity_ = 0 then 1 else o.capacity_ * 2)
    else some (h, o))
  let h1 ← r.1.modify r.2.data_ fun d => do
    let d1 ← std_move_backward d index r.2.size_ (r.2.size_ + 1)
    d1.assign index value
  some (h1, { r.2 with size_ := r.2.size_ + 1 })

/-- The member `Erase` in memory; the returned iterator is left out. -/
def Erase [Element T] (h : Heap T) (o : VectorObj) (index : Nat) :
    Option (Heap T × VectorObj) := do
  let h1 ← h.modify o.data_ fun d => std_move_within d (index + 1) o.size_ index
  some (h1, { o with size_ := o.size_ - 1 })

end VectorObj

/-- The names of the two vector objects of a program. -/
inductive Var where
  | a
  | b
  deriving DecidableEq, Repr

/-- A program state with two vector objects `a` and `b` and the heap. -/
structure Store (T : Type) where
  heap : Heap T
  a : VectorObj
  b : VectorObj

namespace Store

variable {T : Type}

/-- The object with a given name. -/
def get (s : Store T) : Var → VectorObj
  | .a => s.a
  | .b => s.b

/-- The state with the object of a given name replaced. -/
def set (s : Store T) : Var → VectorObj → Store T
  | .a, o => { s with a := o }
  | .b, o => { s with b := o }

/-- The copy assignment `operator=(const SimpleVector& other)` of the object
`this`: when `this != &other`, a temporary is copy-constructed from `other`,
swapped with `this` and destroyed. -/
def assign_copy [Element T] (s : Store T) (this other : Var) : Option (Store T) :=
  if this ≠ other then do
    let r ← VectorObj.ctor_copy s.heap (s.get other)
    let sw := (s.get this).Swap r.2
    let h2 ← VectorObj.destroy r.1 sw.2
    some (({ s with heap := h2 }).set this sw.1)
  else some s

end Store

/-! ## Concrete vectors -/

/-- The vector of `X` left by `PushBack(X(0))`, `PushBack(X(1))`,
`PushBack(X(2))` on a default-constructed vector: three elements, four slots. -/
def threePushed : SimpleVector X := ⟨3, 4, ⟨[⟨0⟩, ⟨1⟩, ⟨2⟩, ⟨5⟩]⟩⟩

/-- What the copy constructor returns for `threePushed`. -/
def copyOfThree : SimpleVector X := ⟨3, 4, ⟨[⟨0⟩, ⟨1⟩, ⟨2⟩]⟩⟩

/-- The vector `threePushed` after two calls of `PopBack`: the slots 1 and 2
still hold the values that were live. -/
def twoPopped : SimpleVector X := ⟨1, 4, ⟨[⟨0⟩, ⟨1⟩, ⟨2⟩, ⟨5⟩]⟩⟩

/-- The vector of `int` built from the list `{1, 2, 3, 4, 5}`. -/
def oneToFive : SimpleVector Int := ⟨5, 5, ⟨[1, 2, 3, 4, 5]⟩⟩

/-- The vector left by `PushBack(x)`, `PushBack(y)`, `PushBack(z)` on a
default-constructed vector, for any element type: three elements and four
slots, the last one as `new T[4]` left it. -/
def pushedThree {T : Type} [Element T] (x y z : T) : SimpleVector T :=
  ⟨3, 4, ⟨[x, y, z, Element.fresh]⟩⟩

/-- What the copy constructor returns for `pushedThree x y z`: size three,
capacity four and an array of three slots. -/
def copiedThree {T : Type} (x y z : T) : SimpleVector T := ⟨3, 4, ⟨[x, y, z]⟩⟩

/-- The vector of `int` built from the list `{1, 2}`. -/
def oneTwo : SimpleVector Int := ⟨2, 2, ⟨[1, 2]⟩⟩

/-- The vector of `int` built from the list `{1, 3}`. -/
def oneThree : SimpleVector Int := ⟨2, 2, ⟨[1, 3]⟩⟩

/-- The vector of `int` built from the list `{1, 2, 3}`. -/
def oneTwoThree : SimpleVector Int := ⟨3, 3, ⟨[1, 2, 3]⟩⟩

/-- Ten values of `X`: `X(0)`, ..., `X(9)`. -/
def tenValues : List X := [⟨0⟩, ⟨1⟩, ⟨2⟩, ⟨3⟩, ⟨4⟩, ⟨5⟩, ⟨6⟩, ⟨7⟩, ⟨8⟩, ⟨9⟩]

/-! ## Loop lemmas -/

section LoopLemmas

variable {T : Type}

theorem ArrayPtr.index_of_lt (p : ArrayPtr T) {i : Nat} (h : i < p.data_.length) :
    p.index i = some (p.data_[i]) := by
  simp [ArrayPtr.index, h]

theorem ArrayPtr.assign_of_lt (p : ArrayPtr T) {i : Nat} (x : T) (h : i < p.data_.length) :
    p.assign i x = some ⟨p.data_.set i x⟩ := by
  simp [ArrayPtr.assign, h]

theorem ArrayPtr.length_alloc [Element T] (n : Nat) :
    (ArrayPtr.alloc n : ArrayPtr T).data_.length = n := by
  unfold ArrayPtr.alloc
  split
  · simp_all
  · simp

theorem ArrayPtr.getElem?_alloc [Element T] (n k : Nat) :
    (ArrayPtr.alloc n : ArrayPtr T).data_[k]? = if k < n then some Element.fresh else none := by
  unfold ArrayPtr.alloc
  split
  · simp_all
  · simp [List.getElem?_replicate]

/-- The loop of `std::fill` writes `value` to the slots `i .. i+n-1` and leaves
the others as they are. -/
theorem fill_loop_spec (value : T) (n : Nat) : ∀ (p : ArrayPtr T) (i : Nat),
    i + n ≤ p.data_.length →
    ∃ q, fill_loop value p i n = some q ∧ q.data_.length = p.data_.length ∧
      ∀ k, q.data_[k]? = if i ≤ k ∧ k < i + n then some value else p.data_[k]? := by
  induction n with
  | zero =>
    intro p i _
    refine ⟨p, rfl, rfl, fun k => ?_⟩
    rw [if_neg (by omega)]
  | succ n ih =>
    intro p i h
    have hi : i < p.data_.length := by omega
    obtain ⟨q, hq, hlen, hget⟩ := ih ⟨p.data_.set i value⟩ (i + 1) (by simp; omega)
    refine ⟨q, ?_, by simpa using hlen, fun k => ?_⟩
    · simp [fill_loop, ArrayPtr.assign_of_lt p value hi, hq]
    · rw [hget k]
      by_cases hk : i = k
      · subst hk
        simp [hi]
      · have h1 : (i + 1 ≤ k ∧ k < i + 1 + n) ↔ (i ≤ k ∧ k < i + (n + 1)) := by omega
        simp only [h1, List.getElem?_set_ne hk]

/-- The loop of `std::move` between two arrays puts the source values
`src[i .. i+n-1]` into `dst[j .. j+n-1]` and leaves the other slots of `dst`
as they are. -/
theorem move_loop_spec [Element T] (n : Nat) : ∀ (src dst : ArrayPtr T) (i j : Nat),
    i + n ≤ src.data_.length → j + n ≤ dst.data_.length →
    ∃ r, move_loop src dst i j n = some r ∧ r.2.data_.length = dst.data_.length ∧
      ∀ k, r.2.data_[k]? =
        if j ≤ k ∧ k < j + n then src.data_[i + (k - j)]? else dst.data_[k]? := by
  induction n with
  | zero =>
    intro src dst i j _ _
    refine ⟨(src, dst), rfl, rfl, fun k => ?_⟩
    rw [if_neg (by omega)]
  | succ n ih =>
    intro src dst i j hs hd
    have hi : i < src.data_.length := by omega
    have hj : j < dst.data_.length := by omega
    obtain ⟨r, hr, hlen, hget⟩ := ih ⟨src.data_.set i (Element.moved src.data_[i])⟩
      ⟨dst.data_.set j src.data_[i]⟩ (i + 1) (j + 1) (by simp; omega) (by simp; omega)
    refine ⟨r, ?_, by simpa using hlen, fun k => ?_⟩
    · simp [move_loop, ArrayPtr.index_of_lt src hi, ArrayPtr.assign_of_lt dst _ hj,
        ArrayPtr.assign_of_lt src _ hi, hr]
    · rw [hget k]
      by_cases hk : j = k
      · subst hk
        have h1 : ¬ (j + 1 ≤ j ∧ j < j + 1 + n) := by omega
        have h2 : j ≤ j ∧ j < j + (n + 1) := by omega
        simp [h1, h2, hi, hj]
      · by_cases hin : j + 1 ≤ k ∧ k < j + 1 + n
        · have h2 : j ≤ k ∧ k < j + (n + 1) := by omega
          have h3 : i ≠ i + (k - j) := by omega
          have h4 : i + 1 + (k - (j + 1)) = i + (k - j) := by omega
          rw [if_pos hin, if_pos h2, h4]
          exact List.getElem?_set_ne h3
        · have h2 : ¬ (j ≤ k ∧ k < j + (n + 1)) := by omega
          rw [if_neg hin, if_neg h2]
          exact List.getElem?_set_ne hk

/-- The loop of `std::move` run inside one array from the position `j + 1` to
the position `j` shifts the `n` slots `j+1 .. j+n` one place to the left. -/
theorem move_within_loop_shift [Element T] (n : Nat) : ∀ (p : ArrayPtr T) (j : Nat),
    j + 1 + n ≤ p.data_.length →
    ∃ q, move_within_loop p (j + 1) j n = some q ∧ q.data_.length = p.data_.length ∧
      ∀ k, (k < j → q.data_[k]? = p.data_[k]?) ∧
        (j ≤ k ∧ k < j + n → q.data_[k]? = p.data_[k + 1]?) ∧
        (j + n < k → q.data_[k]? = p.data_[k]?) := by
  induction n with
  | zero =>
    intro p j _
    exact ⟨p, rfl, rfl, fun k => ⟨fun _ => rfl, fun h => by omega, fun _ => rfl⟩⟩
  | succ n ih =>
    intro p j h
    have hj : j < p.data_.length := by omega
    have hj1 : j + 1 < p.data_.length := by omega
    obtain ⟨q, hq, hlen, hget⟩ := ih
      ⟨(p.data_.set j p.data_[j + 1]).set (j + 1) (Element.moved p.data_[j + 1])⟩ (j + 1)
      (by simp; omega)
    refine ⟨q, ?_, by simpa using hlen, fun k => ⟨fun hk => ?_, fun hk => ?_, fun hk => ?_⟩⟩
    · have h1 : j + 1 < (p.data_.set j p.data_[j + 1]).length := by simpa using hj1
      simp [move_within_loop, ArrayPtr.index_of_lt p hj1, ArrayPtr.assign_of_lt p _ hj,
        ArrayPtr.assign_of_lt ⟨p.data_.set j p.data_[j + 1]⟩ _ h1, hq]
    · rw [(hget k).1 (by omega)]
      show ((p.data_.set j p.data_[j + 1]).set (j + 1) _)[k]? = _
      rw [List.getElem?_set_ne (by omega), List.getElem?_set_ne (by omega)]
    · by_cases hkj : k = j
      · subst hkj
        rw [(hget k).1 (by omega)]
        show ((p.data_.set k p.data_[k + 1]).set (k + 1) _)[k]? = _
        rw [List.getElem?_set_ne (by omega), List.getElem?_set_self hj,
          List.getElem?_eq_getElem hj1]
      · rw [(hget k).2.1 (by omega)]
        show ((p.data_.set j p.data_[j + 1]).set (j + 1) _)[k + 1]? = _
        rw [List.getElem?_set_ne (by omega), List.getElem?_set_ne (by omega)]
    · rw [(hget k).2.2 (by omega)]
      show ((p.data_.set j p.data_[j + 1]).set (j + 1) _)[k]? = _
      rw [List.getElem?_set_ne (by omega), List.getElem?_set_ne (by omega)]

/-- The loop of `std::move_backward` run inside one array from the end
position `m + n` to the end position `m + n + 1` shifts the `n` slots
`m .. m+n-1` one place to the right. -/
theorem move_backward_loop_shift [Element T] (n : Nat) : ∀ (p : ArrayPtr T) (m : Nat),
    m + n + 1 ≤ p.data_.length →
    ∃ q, move_backward_loop p (m + n) (m + n + 1) n = some q ∧
      q.data_.length = p.data_.length ∧
      ∀ k, (k < m → q.data_[k]? = p.data_[k]?) ∧
        (m < k ∧ k ≤ m + n → q.data_[k]? = p.data_[k - 1]?) ∧
        (m + n < k → q.data_[k]? = p.data_[k]?) := by
  induction n with
  | zero =>
    intro p m _
    exact ⟨p, rfl, rfl, fun k => ⟨fun _ => rfl, fun h => by omega, fun _ => rfl⟩⟩
  | succ n ih =>
    intro p m h
    have hs : m + n < p.data_.length := by omega
    have hd : m + n + 1 < p.data_.length := by omega
    obtain ⟨q, hq, hlen, hget⟩ := ih
      ⟨(p.data_.set (m + n + 1) p.data_[m + n]).set (m + n) (Element.moved p.data_[m + n])⟩ m
      (by simp; omega)
    refine ⟨q, ?_, by simpa using hlen, fun k => ⟨fun hk => ?_, fun hk => ?_, fun hk => ?_⟩⟩
    · have h1 : m + n < (p.data_.set (m + n + 1) p.data_[m + n]).length := by simpa using hs
      have e1 : m + (n + 1) - 1 = m + n := by omega
      have e2 : m + (n + 1) + 1 - 1 = m + n + 1 := by omega
      have e3 : ¬ (m + (n + 1) = 0 ∨ m + (n + 1) + 1 = 0) := by omega
      rw [move_backward_loop, if_neg e3, e1, e2]
      simp [ArrayPtr.index_of_lt p hs, ArrayPtr.assign_of_lt p _ hd,
        ArrayPtr.assign_of_lt ⟨p.data_.set (m + n + 1) p.data_[m + n]⟩ _ h1, hq]
    · rw [(hget k).1 hk]
      show ((p.data_.set (m + n + 1) p.data_[m + n]).set (m + n) _)[k]? = _
      rw [List.getElem?_set_ne (by omega), List.getElem?_set_ne (by omega)]
    · by_cases hkl : k = m + n + 1
      · subst hkl
        rw [(hget _).2.2 (by omega)]
        show ((p.data_.set (m + n + 1) p.data_[m + n]).set (m + n) _)[m + n + 1]? = _
        rw [List.getElem?_set_ne (by omega), List.getElem?_set_self hd]
        simp [hs]
      · rw [(hget k).2.1 (by omega)]
        show ((p.data_.set (m + n + 1) p.data_[m + n]).set (m + n) _)[k - 1]? = _
        rw [List.getElem?_set_ne (by omega), List.getElem?_set_ne (by omega)]
    · rw [(hget k).2.2 (by omega)]
      show ((p.data_.set (m + n + 1) p.data_[m + n]).set (m + n) _)[k]? = _
      rw [List.getElem?_set_ne (by omega), List.getElem?_set_ne (by omega)]

/-- The loop of `std::equal` decides whether the two ranges of `n` slots
starting at `i` hold the same values. -/
theorem equal_loop_spec [DecidableEq T] (a b : ArrayPtr T) (n : Nat) : ∀ (i : Nat),
    i + n ≤ a.data_.length → i + n ≤ b.data_.length →
    equal_loop a b i n =
      some (decide ((a.data_.drop i).take n = (b.data_.drop i).take n)) := by
  induction n with
  | zero =>
    intro i _ _
    simp [equal_loop]
  | succ n ih =>
    intro i ha hb
    have hia : i < a.data_.length := by omega
    have hib : i < b.data_.length := by omega
    rw [equal_loop, ArrayPtr.index_of_lt a hia, ArrayPtr.index_of_lt b hib]
    rw [List.drop_eq_getElem_cons hia, List.drop_eq_getElem_cons hib]
    simp only [Option.bind_eq_bind, Option.some_bind, List.take_succ_cons, List.cons.injEq]
    by_cases hxy : a.data_[i] = b.data_[i]
    · rw [if_pos hxy, ih (i + 1) (by omega) (by omega)]
      simp [hxy]
    · rw [if_neg hxy]
      simp [hxy]

/-- The loop of `std::copy` out of a list writes its values to the slots
`j .. j + length - 1` and leaves the others as they are. -/
theorem copy_list_loop_spec (xs : List T) : ∀ (dst : ArrayPtr T) (j : Nat),
    j + xs.length ≤ dst.data_.length →
    ∃ q, copy_list_loop xs dst j = some q ∧ q.data_.length = dst.data_.length ∧
      ∀ k, q.data_[k]? =
        if j ≤ k ∧ k < j + xs.length then xs[k - j]? else dst.data_[k]? := by
  induction xs with
  | nil =>
    intro dst j _
    refine ⟨dst, rfl, rfl, fun k => ?_⟩
    rw [if_neg (by simp)]
  | cons x xs ih =>
    intro dst j h
    rw [List.length_cons] at h
    have hj : j < dst.data_.length := by omega
    obtain ⟨q, hq, hlen, hget⟩ := ih ⟨dst.data_.set j x⟩ (j + 1) (by simp; omega)
    refine ⟨q, ?_, by simpa using hlen, fun k => ?_⟩
    · simp [copy_list_loop, ArrayPtr.assign_of_lt dst x hj, hq]
    · rw [hget k, List.length_cons]
      by_cases hk : j = k
      · subst hk
        rw [if_neg (by omega), if_pos (by omega)]
        simp [hj]
      · by_cases hin : j + 1 ≤ k ∧ k < j + 1 + xs.length
        · rw [if_pos hin, if_pos (by omega)]
          have e : k - j = (k - (j + 1)) + 1 := by omega
          rw [e, List.getElem?_cons_succ]
        · rw [if_neg hin, if_neg (by omega)]
          exact List.getElem?_set_ne hk

/-- The loop of `std::copy` between two arrays puts the source values
`src[i .. i+n-1]` into `dst[j .. j+n-1]` and leaves the other slots of `dst`
as they are. -/
theorem copy_loop_spec (src : ArrayPtr T) (n : Nat) : ∀ (dst : ArrayPtr T) (i j : Nat),
    i + n ≤ src.data_.length → j + n ≤ dst.data_.length →
    ∃ q, copy_loop src dst i j n = some q ∧ q.data_.length = dst.data_.length ∧
      ∀ k, q.data_[k]? =
        if j ≤ k ∧ k < j + n then src.data_[i + (k - j)]? else dst.data_[k]? := by
  induction n with
  | zero =>
    intro dst i j _ _
    refine ⟨dst, rfl, rfl, fun k => ?_⟩
    rw [if_neg (by omega)]
  | succ n ih =>
    intro dst i j hs hd
    have hi : i < src.data_.length := by omega
    have hj : j < dst.data_.length := by omega
    obtain ⟨q, hq, hlen, hget⟩ := ih ⟨dst.data_.set j src.data_[i]⟩ (i + 1) (j + 1)
      (by omega) (by simp; omega)
    refine ⟨q, ?_, by simpa using hlen, fun k => ?_⟩
    · simp [copy_loop, ArrayPtr.index_of_lt src hi, ArrayPtr.assign_of_lt dst _ hj, hq]
    · rw [hget k]
      by_cases hk : j = k
      · subst hk
        rw [if_neg (by omega), if_pos (by omega)]
        simp [hi, hj]
      · by_cases hin : j + 1 ≤ k ∧ k < j + 1 + n
        · have h4 : i + 1 + (k - (j + 1)) = i + (k - j) := by omega
          rw [if_pos hin, if_pos (by omega), h4]
        · rw [if_neg hin, if_neg (by omega)]
          exact List.getElem?_set_ne hk

/-- The loop of `std::lexicographical_compare` computes `lexLt` of the two
ranges. -/
theorem lexicographical_compare_loop_spec [LT T] [∀ x y : T, Decidable (x < y)]
    (a b : ArrayPtr T) (n : Nat) : ∀ (i m : Nat),
    i + n ≤ a.data_.length → i + m ≤ b.data_.length →
    lexicographical_compare_loop a b i n m =
      some (lexLt ((a.data_.drop i).take n) ((b.data_.drop i).take m)) := by
  induction n with
  | zero =>
    intro i m _ hb
    cases m with
    | zero => simp [lexicographical_compare_loop, lexLt]
    | succ m =>
      have hib : i < b.data_.length := by omega
      rw [List.drop_eq_getElem_cons hib]
      simp [lexicographical_compare_loop, lexLt]
  | succ n ih =>
    intro i m ha hb
    have hia : i < a.data_.length := by omega
    cases m with
    | zero =>
      rw [List.drop_eq_getElem_cons hia]
      simp [lexicographical_compare_loop, lexLt]
    | succ m =>
      have hib : i < b.data_.length := by omega
      rw [lexicographical_compare_loop, ArrayPtr.index_of_lt a hia,
        ArrayPtr.index_of_lt b hib, List.drop_eq_getElem_cons hia,
        List.drop_eq_getElem_cons hib]
      simp only [Option.bind_eq_bind, Option.some_bind, List.take_succ_cons, lexLt]
      by_cases h1 : a.data_[i] < b.data_[i]
      · rw [if_pos h1, if_pos h1]
      · rw [if_neg h1, if_neg h1]
        by_cases h2 : b.data_[i] < a.data_[i]
        · rw [if_pos h2, if_pos h2]
        · rw [if_neg h2, if_neg h2]
          exact ih (i + 1) m (by omega) (by omega)

theorem LexLess_congr [LT T] {f g f2 g2 : Nat → Option T} {n m : Nat}
    (hf : ∀ i, i < n → f i = f2 i) (hg : ∀ i, i < m → g i = g2 i)
    (h : LexLess f g n m) : LexLess f2 g2 n m := by
  rcases h with ⟨i, hi, heq, x, y, hx, hy, hxy⟩ | ⟨hnm, heq⟩
  · refine Or.inl ⟨i, hi, fun j hj => ?_, x, y, ?_, ?_, hxy⟩
    · obtain ⟨u, w, hu, hw, h1, h2⟩ := heq j hj
      exact ⟨u, w, by rw [← hf j (by omega)]; exact hu, by rw [← hg j (by omega)]; exact hw,
        h1, h2⟩
    · rw [← hf i (by omega)]; exact hx
    · rw [← hg i (by omega)]; exact hy
  · refine Or.inr ⟨hnm, fun j hj => ?_⟩
    obtain ⟨u, w, hu, hw, h1, h2⟩ := heq j hj
    exact ⟨u, w, by rw [← hf j hj]; exact hu, by rw [← hg j (by omega)]; exact hw, h1, h2⟩

/-- Adding a pair of equivalent heads does not change the lexicographic
order in words. -/
theorem LexLess_cons [LT T] (x y : T) (xs ys : List T) (h1 : ¬ x < y) (h2 : ¬ y < x) :
    LexLess (fun i => (x :: xs)[i]?) (fun i => (y :: ys)[i]?) (xs.length + 1) (ys.length + 1) ↔
    LexLess (fun i => xs[i]?) (fun i => ys[i]?) xs.length ys.length := by
  constructor
  · rintro (⟨i, hi, heq, u, w, hu, hw, huw⟩ | ⟨hnm, heq⟩)
    · cases i with
      | zero =>
        simp only [List.getElem?_cons_zero, Option.some.injEq] at hu hw
        subst hu; subst hw
        exact absurd huw h1
      | succ i =>
        refine Or.inl ⟨i, by omega, fun j hj => ?_, u, w, ?_, ?_, huw⟩
        · obtain ⟨a, b, ha, hb, hab⟩ := heq (j + 1) (by omega)
          exact ⟨a, b, by simpa using ha, by simpa using hb, hab⟩
        · simpa using hu
        · simpa using hw
    · refine Or.inr ⟨by omega, fun j hj => ?_⟩
      obtain ⟨a, b, ha, hb, hab⟩ := heq (j + 1) (by omega)
      exact ⟨a, b, by simpa using ha, by simpa using hb, hab⟩
  · rintro (⟨i, hi, heq, u, w, hu, hw, huw⟩ | ⟨hnm, heq⟩)
    · refine Or.inl ⟨i + 1, by omega, fun j hj => ?_, u, w, by simpa using hu,
        by simpa using hw, huw⟩
      cases j with
      | zero => exact ⟨x, y, by simp, by simp, h1, h2⟩
      | succ j =>
        obtain ⟨a, b, ha, hb, hab⟩ := heq j (by omega)
        exact ⟨a, b, by simpa using ha, by simpa using hb, hab⟩
    · refine Or.inr ⟨by omega, fun j hj => ?_⟩
      cases j with
      | zero => exact ⟨x, y, by simp, by simp, h1, h2⟩
      | succ j =>
        obtain ⟨a, b, ha, hb, hab⟩ := heq j (by omega)
        exact ⟨a, b, by simpa using ha, by simpa using hb, hab⟩

/-- The function `lexLt` decides the lexicographic order in words. -/
theorem lexLt_iff_LexLess [LT T] [∀ x y : T, Decidable (x < y)] (la : List T) :
    ∀ lb : List T, lexLt la lb = true ↔
      LexLess (fun i => la[i]?) (fun i => lb[i]?) la.length lb.length := by
  induction la with
  | nil =>
    intro lb
    cases lb with
    | nil =>
      simp only [lexLt, List.length_nil]
      constructor
      · intro h; cases h
      · rintro (⟨i, hi, -⟩ | ⟨h, -⟩) <;> omega
    | cons y ys =>
      simp only [lexLt, List.length_nil, List.length_cons, true_iff]
      exact Or.inr ⟨by omega, fun j hj => by omega⟩
  | cons x xs ih =>
    intro lb
    cases lb with
    | nil =>
      simp only [lexLt, List.length_nil, List.length_cons]
      constructor
      · intro h; cases h
      · rintro (⟨i, hi, -⟩ | ⟨h, -⟩) <;> omega
    | cons y ys =>
      simp only [lexLt, List.length_cons]
      by_cases h1 : x < y
      · rw [if_pos h1]
        simp only [true_iff]
        exact Or.inl ⟨0, by omega, fun j hj => by omega, x, y, by simp, by simp, h1⟩
      · rw [if_neg h1]
        by_cases h2 : y < x
        · rw [if_pos h2]
          constructor
          · intro h; cases h
          · rintro (⟨i, hi, heq, u, w, hu, hw, huw⟩ | ⟨hnm, heq⟩)
            · cases i with
              | zero =>
                simp only [List.getElem?_cons_zero, Option.some.injEq] at hu hw
                subst hu; subst hw
                exact absurd huw h1
              | succ i =>
                obtain ⟨a, b, ha, hb, -, hba⟩ := heq 0 (by omega)
                simp only [List.getElem?_cons_zero, Option.some.injEq] at ha hb
                subst ha; subst hb
                exact absurd h2 hba
            · obtain ⟨a, b, ha, hb, -, hba⟩ := heq 0 (by omega)
              simp only [List.getElem?_cons_zero, Option.some.injEq] at ha hb
              subst ha; subst hb
              exact absurd h2 hba
        · rw [if_neg h2, ih ys]
          exact (LexLess_cons x y xs ys h1 h2).symm

/-- For a linear order on the elements, exactly one of `la < lb`, `la = lb`
and `lb < la` holds for `lexLt`. -/
theorem lexLt_trichotomy [LinearOrder T] (la : List T) : ∀ lb : List T,
    (lexLt la lb = true ∧ la ≠ lb ∧ lexLt lb la = false) ∨
    (lexLt la lb = false ∧ la = lb ∧ lexLt lb la = false) ∨
    (lexLt la lb = false ∧ la ≠ lb ∧ lexLt lb la = true) := by
  induction la with
  | nil =>
    intro lb
    cases lb with
    | nil => exact Or.inr (Or.inl ⟨rfl, rfl, rfl⟩)
    | cons y ys => exact Or.inl ⟨rfl, by simp, rfl⟩
  | cons x xs ih =>
    intro lb
    cases lb with
    | nil => exact Or.inr (Or.inr ⟨rfl, by simp, rfl⟩)
    | cons y ys =>
      rcases lt_trichotomy x y with hxy | hxy | hxy
      · refine Or.inl ⟨by simp [lexLt, hxy], ?_, by simp [lexLt, hxy, not_lt_of_lt hxy]⟩
        intro h
        injection h with h _
        exact absurd h (ne_of_lt hxy)
      · subst hxy
        simp only [lexLt, lt_self_iff_false, if_false, List.cons.injEq, true_and, ne_eq]
        exact ih ys
      · refine Or.inr (Or.inr ⟨by simp [lexLt, hxy, not_lt_of_lt hxy], ?_, by simp [lexLt, hxy]⟩)
        intro h
        injection h with h _
        exact absurd h.symm (ne_of_lt hxy)

end LoopLemmas

/-! ## The operations of `SimpleVector` -/

namespace SimpleVector

variable {T : Type}

theorem take_congr_getElem? {l₁ l₂ : List T} {n : Nat}
    (h : ∀ k, k < n → l₁[k]? = l₂[k]?) : l₁.take n = l₂.take n := by
  apply List.ext_getElem?
  intro k
  rw [List.getElem?_take, List.getElem?_take]
  split
  · rename_i hk
    exact h k hk
  · rfl

theorem getElem?_toList (v : SimpleVector T) (k : Nat) (h : k < v.size_) :
    v.toList[k]? = v.data_.data_[k]? := by
  unfold toList
  rw [List.getElem?_take, if_pos h]

theorem length_toList (v : SimpleVector T) (h : v.size_ ≤ v.data_.slots) :
    v.toList.length = v.size_ := by
  unfold toList
  rw [List.length_take]
  exact Nat.min_eq_left h

theorem ctor_default_inv : (ctor_default : SimpleVector T).Inv := by
  simp [Inv, ctor_default, ArrayPtr.null, ArrayPtr.slots]

/-- `Reserve` with a capacity that is not larger than the current one does
nothing. -/
theorem Reserve_noop [Element T] (v : SimpleVector T) (n : Nat) (h : n ≤ v.capacity_) :
    v.Reserve n = some v := by
  unfold Reserve
  rw [if_neg (by omega)]

/-- `Reserve` with a larger capacity moves the live elements to a new array
of exactly that many slots. -/
theorem Reserve_grow [Element T] (v : SimpleVector T) (n : Nat)
    (hs : v.size_ ≤ v.data_.slots) (hn : v.size_ ≤ n) (h : v.capacity_ < n) :
    ∃ d : ArrayPtr T, v.Reserve n = some ⟨v.size_, n, d⟩ ∧ d.data_.length = n ∧
      ∀ k, d.data_[k]? = if k < v.size_ then v.data_.data_[k]?
        else if k < n then some Element.fresh else none := by
  obtain ⟨r, hr, hlen, hget⟩ := move_loop_spec v.size_ v.data_ (ArrayPtr.alloc n) 0 0
    (by simpa [ArrayPtr.slots] using hs)
    (by rw [ArrayPtr.length_alloc]; unfold ArrayPtr.slots at *; omega)
  refine ⟨r.2, ?_, by rw [hlen, ArrayPtr.length_alloc], fun k => ?_⟩
  · unfold Reserve std_move
    rw [if_pos h]
    simp [hr, ArrayPtr.Swap]
  · rw [hget k, ArrayPtr.getElem?_alloc]
    by_cases hk : k < v.size_
    · rw [if_pos hk, if_pos (by omega)]
      simp
    · rw [if_neg hk, if_neg (by omega)]

/-- The growth step shared by `PushBack` and `Insert`: afterwards there is
room for one more element and the live elements are the same. -/
theorem grow_spec [Element T] (v : SimpleVector T) (h : v.Inv) :
    ∃ v1 : SimpleVector T,
      (if v.size_ = v.capacity_ then
          v.Reserve (if v.capacity_ = 0 then 1 else v.capacity_ * 2)
        else some v) = some v1 ∧
      v1.size_ = v.size_ ∧ v1.size_ < v1.capacity_ ∧ v1.capacity_ ≤ v1.data_.data_.length ∧
      (∀ k, k < v.size_ → v1.data_.data_[k]? = v.data_.data_[k]?) ∧
      v1.capacity_ = (if v.size_ = v.capacity_ then
        (if v.capacity_ = 0 then 1 else v.capacity_ * 2) else v.capacity_) := by
  obtain ⟨h1, h2⟩ := h
  unfold ArrayPtr.slots at h2
  by_cases hfull : v.size_ = v.capacity_
  · have hlt : v.capacity_ < (if v.capacity_ = 0 then 1 else v.capacity_ * 2) := by
      split <;> omega
    obtain ⟨d, hd, hlen, hget⟩ := Reserve_grow v _
      (by unfold ArrayPtr.slots; omega) (by omega) hlt
    refine ⟨⟨v.size_, if v.capacity_ = 0 then 1 else v.capacity_ * 2, d⟩,
      by rw [if_pos hfull]; exact hd, rfl, ?_, ?_, ?_, ?_⟩
    · show v.size_ < (if v.capacity_ = 0 then 1 else v.capacity_ * 2)
      omega
    · show (if v.capacity_ = 0 then 1 else v.capacity_ * 2) ≤ d.data_.length
      omega
    · intro k hk
      show d.data_[k]? = _
      rw [hget k, if_pos hk]
    · rw [if_pos hfull]
  · refine ⟨v, by rw [if_neg hfull], rfl, by omega, h2, fun _ _ => rfl, ?_⟩
    rw [if_neg hfull]

/-- What `PushBack` does to a vector that satisfies the data model. -/
theorem PushBack_spec [Element T] (v : SimpleVector T) (x : T) (h : v.Inv) :
    ∃ v2 : SimpleVector T, v.PushBack x = some v2 ∧ v2.Inv ∧ v2.size_ = v.size_ + 1 ∧
      v2.capacity_ = (if v.size_ = v.capacity_ then
        (if v.capacity_ = 0 then 1 else v.capacity_ * 2) else v.capacity_) ∧
      (∀ k, k < v.size_ → v2.data_.data_[k]? = v.data_.data_[k]?) ∧
      v2.data_.data_[v.size_]? = some x := by
  obtain ⟨v1, hv1, hsz, hlt, hcap, hget, hc⟩ := grow_spec v h
  have hi : v1.size_ < v1.data_.data_.length := by omega
  refine ⟨{ v1 with data_ := ⟨v1.data_.data_.set v1.size_ x⟩, size_ := v1.size_ + 1 },
    ?_, ?_, ?_, hc, ?_, ?_⟩
  · unfold PushBack
    rw [hv1]
    simp [ArrayPtr.assign_of_lt v1.data_ x hi]
  · constructor
    · show v1.size_ + 1 ≤ v1.capacity_
      omega
    · show v1.capacity_ ≤ (v1.data_.data_.set v1.size_ x).length
      simpa using hcap
  · show v1.size_ + 1 = _
    omega
  · intro k hk
    show (v1.data_.data_.set v1.size_ x)[k]? = _
    rw [List.getElem?_set_ne (by omega), hget k hk]
  · show (v1.data_.data_.set v1.size_ x)[v.size_]? = _
    rw [← hsz, List.getElem?_set_self hi]

/-- What `Insert` does to a vector that satisfies the data model, for a
position between `begin()` and `end()`. -/
theorem Insert_spec [Element T] (v : SimpleVector T) (k : Nat) (x : T) (h : v.Inv)
    (hk : k ≤ v.size_) :
    ∃ v2 : SimpleVector T, v.Insert k x = some (k, v2) ∧ v2.Inv ∧ v2.size_ = v.size_ + 1 ∧
      v2.capacity_ = (if v.size_ = v.capacity_ then
        (if v.capacity_ = 0 then 1 else v.capacity_ * 2) else v.capacity_) ∧
      ∀ j, (j < k → v2.data_.data_[j]? = v.data_.data_[j]?) ∧
        (j = k → v2.data_.data_[j]? = some x) ∧
        (k < j ∧ j ≤ v.size_ → v2.data_.data_[j]? = v.data_.data_[j - 1]?) := by
  obtain ⟨v1, hv1, hsz, hlt, hcap, hget, hc⟩ := grow_spec v h
  obtain ⟨n, hn⟩ : ∃ n, v1.size_ = k + n := ⟨v1.size_ - k, by omega⟩
  obtain ⟨q, hq, hlen, hsh⟩ := move_backward_loop_shift n v1.data_ k (by omega)
  have hkq : k < q.data_.length := by omega
  refine ⟨{ v1 with data_ := ⟨q.data_.set k x⟩, size_ := v1.size_ + 1 }, ?_, ?_, ?_, hc,
    fun j => ⟨fun hj => ?_, fun hj => ?_, fun hj => ?_⟩⟩
  · unfold Insert std_move_backward
    rw [hv1]
    have e : k + n - k = n := by omega
    simp [hn, e, hq, ArrayPtr.assign_of_lt q x hkq]
  · constructor
    · show v1.size_ + 1 ≤ v1.capacity_
      omega
    · show v1.capacity_ ≤ (q.data_.set k x).length
      rw [List.length_set, hlen]
      exact hcap
  · show v1.size_ + 1 = _
    omega
  · show (q.data_.set k x)[j]? = _
    rw [List.getElem?_set_ne (by omega), (hsh j).1 hj, hget j (by omega)]
  · subst hj
    show (q.data_.set j x)[j]? = _
    rw [List.getElem?_set_self hkq]
  · show (q.data_.set k x)[j]? = _
    rw [List.getElem?_set_ne (by omega), (hsh j).2.1 (by omega), hget (j - 1) (by omega)]

/-- What `Erase` does for a position that refers to a live element. -/
theorem Erase_spec [Element T] (v : SimpleVector T) (k : Nat)
    (hs : v.size_ ≤ v.data_.slots) (hk : k < v.size_) :
    ∃ d : ArrayPtr T, v.Erase k = some (k, ⟨v.size_ - 1, v.capacity_, d⟩) ∧
      d.data_.length = v.data_.data_.length ∧
      ∀ j, (j < k → d.data_[j]? = v.data_.data_[j]?) ∧
        (k ≤ j ∧ j + 1 < v.size_ → d.data_[j]? = v.data_.data_[j + 1]?) := by
  unfold ArrayPtr.slots at hs
  obtain ⟨q, hq, hlen, hsh⟩ := move_within_loop_shift (v.size_ - (k + 1)) v.data_ k (by omega)
  refine ⟨q, ?_, hlen, fun j => ⟨fun hj => (hsh j).1 hj, fun hj => (hsh j).2.1 (by omega)⟩⟩
  unfold Erase std_move_within
  rw [if_pos (by omega)]
  simp [hq]

/-- What `Resize` does to a vector that satisfies the data model. -/
theorem Resize_spec [Element T] (v : SimpleVector T) (n : Nat) (h : v.Inv) :
    ∃ v2 : SimpleVector T, v.Resize n = some v2 ∧ v2.Inv ∧ v2.size_ = n ∧
      v2.capacity_ = max v.capacity_ n ∧
      ∀ j, (j < v.size_ ∧ j < n → v2.data_.data_[j]? = v.data_.data_[j]?) ∧
        (v.size_ ≤ j ∧ j < n → v2.data_.data_[j]? = some Element.init) := by
  obtain ⟨h1, h2⟩ := h
  unfold ArrayPtr.slots at h2
  by_cases hgrow : n > v.capacity_
  · obtain ⟨d, hd, hlen, hget⟩ := Reserve_grow v n
      (by unfold ArrayPtr.slots; omega) (by omega) hgrow
    obtain ⟨q, hq, hqlen, hqget⟩ := fill_loop_spec (Element.init : T) (n - v.size_) d v.size_
      (by omega)
    refine ⟨⟨n, n, q⟩, ?_, ?_, rfl, ?_, fun j => ⟨fun hj => ?_, fun hj => ?_⟩⟩
    · unfold Resize
      rw [if_pos hgrow, hd]
      simp [hq]
    · exact ⟨Nat.le_refl _, by show n ≤ q.data_.length; omega⟩
    · show n = max v.capacity_ n
      omega
    · show q.data_[j]? = _
      rw [hqget j, if_neg (by omega), hget j, if_pos hj.1]
    · show q.data_[j]? = _
      rw [hqget j, if_pos (by omega)]
  · obtain ⟨q, hq, hqlen, hqget⟩ := fill_loop_spec (Element.init : T) (n - v.size_) v.data_
      v.size_ (by omega)
    refine ⟨⟨n, v.capacity_, q⟩, ?_, ?_, rfl, ?_, fun j => ⟨fun hj => ?_, fun hj => ?_⟩⟩
    · unfold Resize
      rw [if_neg hgrow]
      simp [hq]
    · exact ⟨by show n ≤ v.capacity_; omega, by show v.capacity_ ≤ q.data_.length; omega⟩
    · show v.capacity_ = max v.capacity_ n
      omega
    · show q.data_[j]? = _
      rw [hqget j, if_neg (by omega)]
    · show q.data_[j]? = _
      rw [hqget j, if_pos (by omega)]

/-- The operator `==` compares the live elements. -/
theorem eq_spec [DecidableEq T] (a b : SimpleVector T) (ha : a.size_ ≤ a.data_.slots)
    (hb : b.size_ ≤ b.data_.slots) : a.eq b = some (decide (a.toList = b.toList)) := by
  unfold eq std_equal
  by_cases hsz : a.size_ = b.size_
  · rw [if_pos hsz, equal_loop_spec a.data_ b.data_ a.size_ 0
      (by unfold ArrayPtr.slots at ha; omega) (by unfold ArrayPtr.slots at hb; omega)]
    simp [toList, hsz]
  · rw [if_neg hsz]
    have hne : a.toList ≠ b.toList := by
      intro he
      apply hsz
      rw [← length_toList a ha, ← length_toList b hb, he]
    simp [hne]

theorem PushBackAll_append [Element T] (xs ys : List T) : ∀ v : SimpleVector T,
    v.PushBackAll (xs ++ ys) = (v.PushBackAll xs).bind fun v1 => v1.PushBackAll ys := by
  induction xs with
  | nil => intro v; rfl
  | cons x xs ih =>
    intro v
    show (v.PushBack x).bind (fun v1 => v1.PushBackAll (xs ++ ys)) =
      ((v.PushBack x).bind fun v1 => v1.PushBackAll xs).bind fun v1 => v1.PushBackAll ys
    cases v.PushBack x with
    | none => rfl
    | some v1 => exact ih v1

/-- While there is room, a run of `PushBack` calls never changes the
capacity. -/
theorem PushBackAll_room [Element T] (xs : List T) : ∀ v : SimpleVector T, v.Inv →
    v.size_ + xs.length ≤ v.capacity_ →
    ∃ v2 : SimpleVector T, v.PushBackAll xs = some v2 ∧ v2.Inv ∧
      v2.size_ = v.size_ + xs.length ∧ v2.capacity_ = v.capacity_ := by
  induction xs with
  | nil => intro v h _; exact ⟨v, rfl, h, rfl, rfl⟩
  | cons x xs ih =>
    intro v h hroom
    rw [List.length_cons] at hroom
    obtain ⟨v1, hv1, hinv1, hsz1, hcap1, -, -⟩ := PushBack_spec v x h
    rw [if_neg (by omega)] at hcap1
    obtain ⟨v2, hv2, hinv2, hsz2, hcap2⟩ := ih v1 hinv1 (by omega)
    refine ⟨v2, ?_, hinv2, ?_, by omega⟩
    · show (v.PushBack x).bind (fun v1 => v1.PushBackAll xs) = some v2
      rw [hv1]
      exact hv2
    · rw [List.length_cons]
      omega

/-- After any run of `PushBack` calls on a default-constructed vector the
capacity is `0` when nothing was pushed, and otherwise a power of two that is
at least the size and less than twice the size. -/
theorem PushBackAll_default [Element T] (xs : List T) :
    ∃ v : SimpleVector T, (ctor_default : SimpleVector T).PushBackAll xs = some v ∧ v.Inv ∧
      v.size_ = xs.length ∧
      ((xs.length = 0 ∧ v.capacity_ = 0) ∨
        ∃ e, v.capacity_ = 2 ^ e ∧ xs.length ≤ 2 ^ e ∧ 2 ^ e < 2 * xs.length) := by
  induction xs using List.reverseRecOn with
  | nil => exact ⟨ctor_default, rfl, ctor_default_inv, rfl, Or.inl ⟨rfl, rfl⟩⟩
  | append_singleton xs x ih =>
    obtain ⟨v, hv, hinv, hsz, hcap⟩ := ih
    obtain ⟨v1, hv1, hinv1, hsz1, hcap1, -, -⟩ := PushBack_spec v x hinv
    refine ⟨v1, ?_, hinv1, ?_, Or.inr ?_⟩
    · rw [PushBackAll_append, hv]
      show (v.PushBack x).bind (fun v1 => some v1) = some v1
      rw [hv1]
      rfl
    · rw [List.length_append, List.length_singleton]
      omega
    · rw [List.length_append, List.length_singleton]
      rcases hcap with ⟨h0, hc0⟩ | ⟨e, he, hle, hlt⟩
      · refine ⟨0, ?_, by omega, by omega⟩
        rw [hcap1, if_pos (by omega), if_pos hc0]
        rfl
      · by_cases hfull : v.size_ = v.capacity_
        · refine ⟨e + 1, ?_, ?_, ?_⟩
          · have hpos : 0 < 2 ^ e := Nat.pow_pos (by decide)
            rw [hcap1, if_pos hfull, if_neg (by omega), he, pow_succ]
          · rw [pow_succ]
            omega
          · rw [pow_succ]
            omega
        · refine ⟨e, ?_, ?_, by omega⟩
          · rw [hcap1, if_neg hfull, he]
          · have := hinv.1
            omega

theorem threePushed_reachable :
    (ctor_default : SimpleVector X).PushBackAll [⟨0⟩, ⟨1⟩, ⟨2⟩] = some threePushed := by
  decide

theorem twoPopped_reachable : threePushed.PopBack.PopBack = twoPopped := by
  decide

theorem oneToFive_reachable (junk : Int) :
    @ctor_init_list Int (intElement junk) [1, 2, 3, 4, 5] = some oneToFive := by
  rfl

/-! ## The claims -/

/-- On a vector that satisfies the data model (size at most capacity,
capacity at most the allocated slots), `PushBack(x)` returns, and leaves a
vector whose live elements are the old ones followed by `x`: the size grows by
exactly one, every element below the old size is unchanged and the element at
the old size is `x`.  Both the case with room and the case that reallocates
are covered. -/
theorem PushBack_appends [Element T] (v : SimpleVector T) (x : T) (h : v.Inv) :
    ∃ v2 : SimpleVector T, v.PushBack x = some v2 ∧
      v2.toList = v.toList ++ [x] ∧
      v2.Size = v.Size + 1 ∧
      (∀ i, i < v.Size → ∃ y, v.Index i = some y ∧ v2.Index i = some y) ∧
      v2.Index v.Size = some x := by
  obtain ⟨v2, hv2, hinv, hsz, -, hget, hlast⟩ := PushBack_spec v x h
  have hlen : v.toList.length = v.size_ := length_toList v (by have := h.1; have := h.2; omega)
  refine ⟨v2, hv2, ?_, hsz, fun i hi => ?_, hlast⟩
  · apply List.ext_getElem?
    intro k
    by_cases hk : k < v.size_
    · rw [getElem?_toList v2 k (by omega), hget k hk,
        List.getElem?_append_left (by omega), getElem?_toList v k hk]
    · by_cases hk2 : k = v.size_
      · subst hk2
        rw [getElem?_toList v2 _ (by omega), hlast,
          List.getElem?_append_right (by omega), hlen]
        simp
      · rw [List.getElem?_eq_none (by rw [length_toList v2 (by have := hinv.1; have := hinv.2; omega)]; omega),
          List.getElem?_eq_none (by rw [List.length_append, hlen, List.length_singleton]; omega)]
  · have hi2 : i < v.data_.data_.length := by
      have := h.1; have := h.2; unfold ArrayPtr.slots at *; unfold Size at hi; omega
    refine ⟨v.data_.data_[i], ArrayPtr.index_of_lt v.data_ hi2, ?_⟩
    show v2.data_.data_[i]? = _
    rw [hget i hi, List.getElem?_eq_getElem hi2]

/-- On a vector that satisfies the data model, `Insert` at an index `k`
with `k ≤ Size()` returns the position `k` and leaves the first `k` live
elements, then `x`, then the remaining live elements in their order; the size
grows by exactly one and the element at the returned position is `x`.  Full
vectors, the empty vector of capacity `0` included, are covered. -/
theorem Insert_places [Element T] (v : SimpleVector T) (k : Nat) (x : T) (h : v.Inv)
    (hk : k ≤ v.Size) :
    ∃ v2 : SimpleVector T, v.Insert k x = some (k, v2) ∧
      v2.toList = v.toList.take k ++ [x] ++ v.toList.drop k ∧
      v2.Size = v.Size + 1 ∧
      v2.Index k = some x := by
  obtain ⟨v2, hv2, hinv, hsz, -, hget⟩ := Insert_spec v k x h hk
  have hlen : v.toList.length = v.size_ := length_toList v (by have := h.1; have := h.2; omega)
  unfold Size at hk
  refine ⟨v2, hv2, ?_, hsz, (hget k).2.1 rfl⟩
  apply List.ext_getElem?
  intro j
  have htk : (v.toList.take k).length = k := by rw [List.length_take, hlen]; omega
  by_cases hj : j < k
  · rw [getElem?_toList v2 j (by omega), (hget j).1 hj, List.append_assoc,
      List.getElem?_append_left (by omega), List.getElem?_take_of_lt hj,
      getElem?_toList v j (by omega)]
  · by_cases hj2 : j = k
    · subst hj2
      rw [getElem?_toList v2 _ (by omega), (hget j).2.1 rfl, List.append_assoc,
        List.getElem?_append_right (by omega), htk]
      simp
    · by_cases hj3 : j ≤ v.size_
      · rw [getElem?_toList v2 j (by omega), (hget j).2.2 (by omega),
          List.getElem?_append_right (by rw [List.length_append, htk, List.length_singleton]; omega),
          List.length_append, htk, List.length_singleton, List.getElem?_drop,
          getElem?_toList v _ (by omega)]
        congr 1
        omega
      · rw [List.getElem?_eq_none (by rw [length_toList v2 (by have := hinv.1; have := hinv.2; omega)]; omega),
          List.getElem?_eq_none (by simp only [List.length_append, htk, List.length_singleton, List.length_drop, hlen]; omega)]

/-- C3: on a non-empty vector whose live elements are slots of its array,
`Erase` at an index `k` with `k < Size()` returns the position `k` and leaves the live
elements without the `k`-th one, the others in their order; the size shrinks
by exactly one and the capacity is unchanged.  The returned position refers
to the element that followed the erased one, or is the end position when `k`
was the last index. -/
theorem Erase_removes [Element T] (v : SimpleVector T) (k : Nat)
    (h : v.Size ≤ v.data_.slots) (hk : k < v.Size) :
    ∃ v2 : SimpleVector T, v.Erase k = some (k, v2) ∧
      v2.toList = v.toList.take k ++ v.toList.drop (k + 1) ∧
      v2.Size + 1 = v.Size ∧
      v2.Capacity = v.Capacity ∧
      (k + 1 < v.Size → k < v2.Size ∧ ∃ y, v.Index (k + 1) = some y ∧ v2.Index k = some y) ∧
      (k + 1 = v.Size → k = v2.Size) := by
  have hs : v.size_ ≤ v.data_.slots := h
  unfold Size at hk
  obtain ⟨d, hd, hdlen, hget⟩ := Erase_spec v k hs hk
  have hlen : v.toList.length = v.size_ := length_toList v hs
  unfold ArrayPtr.slots at hs
  refine ⟨⟨v.size_ - 1, v.capacity_, d⟩, hd, ?_, ?_, rfl, fun hk1 => ⟨?_, ?_⟩, fun hk1 => ?_⟩
  · apply List.ext_getElem?
    intro j
    have htk : (v.toList.take k).length = k := by rw [List.length_take, hlen]; omega
    by_cases hj : j < k
    · rw [getElem?_toList _ j (by show j < v.size_ - 1; omega)]
      show d.data_[j]? = _
      rw [(hget j).1 hj, List.getElem?_append_left (by omega), List.getElem?_take_of_lt hj,
        getElem?_toList v j (by omega)]
    · by_cases hj2 : j + 1 < v.size_
      · rw [getElem?_toList _ j (by show j < v.size_ - 1; omega)]
        show d.data_[j]? = _
        rw [(hget j).2 (by omega), List.getElem?_append_right (by omega), htk,
          List.getElem?_drop, getElem?_toList v _ (by omega)]
        congr 1
        omega
      · rw [List.getElem?_eq_none (by
            rw [length_toList _ (by show v.size_ - 1 ≤ d.data_.length; omega)]
            show v.size_ - 1 ≤ j
            omega),
          List.getElem?_eq_none (by
            simp only [List.length_append, htk, List.length_drop, hlen]; omega)]
  · show v.size_ - 1 + 1 = v.size_
    omega
  · show k < v.size_ - 1
    unfold Size at hk1
    omega
  · unfold Size at hk1
    have hi : k + 1 < v.data_.data_.length := by omega
    refine ⟨v.data_.data_[k + 1], ArrayPtr.index_of_lt v.data_ hi, ?_⟩
    show d.data_[k]? = _
    rw [(hget k).2 (by omega), List.getElem?_eq_getElem hi]
  · show k = v.size_ - 1
    unfold Size at hk1
    omega

/-- Witness of C3: erasing index `0` of `[1, 2, 3, 4, 5]` gives `[2, 3, 4, 5]`
and the returned position refers to `2`. -/
theorem Erase_removes_witness :
    oneToFive.Size ≤ oneToFive.data_.slots ∧ 0 < oneToFive.Size ∧
    ∃ v2 : SimpleVector Int, @Erase Int (intElement 0) oneToFive 0 = some (0, v2) ∧
      v2.toList = [2, 3, 4, 5] ∧ v2.Size = 4 ∧ v2.Capacity = 5 ∧ v2.Index 0 = some 2 :=
  ⟨by decide, by decide,
    (@Erase_removes Int (intElement 0) oneToFive 0 (by decide) (by decide)).imp
      fun v2 hv2 => ⟨hv2.1, hv2.2.1.trans rfl, Nat.succ.inj hv2.2.2.1, hv2.2.2.2.1,
        by
          obtain ⟨y, hy, hy2⟩ := (hv2.2.2.2.2.1 (by decide)).2
          have e : y = 2 := Option.some.inj (hy.symm.trans rfl)
          rw [hy2, e]⟩⟩

/-- C4 fails on the code: the copy of a vector with three elements and
capacity four records capacity four, not three, although its array has only
three slots; a following `PushBack` on the copy writes outside the array. -/
theorem ctor_copy_capacity_exceeds_slots :
    (ctor_default : SimpleVector X).PushBackAll [⟨0⟩, ⟨1⟩, ⟨2⟩] = some threePushed ∧
    threePushed.Size = 3 ∧ threePushed.Capacity = 4 ∧
    ctor_copy threePushed = some copyOfThree ∧
    copyOfThree.Size = 3 ∧ copyOfThree.Capacity = 4 ∧
    copyOfThree.Capacity ≠ threePushed.Size ∧
    copyOfThree.data_.slots = 3 ∧
    copyOfThree.PushBack ⟨9⟩ = none := by
  decide

/-- C6: move construction from `a` and move assignment of `a` to an existing
vector `b` both leave the target with the size, the capacity and the live
elements of `a`, and leave `a` with size `0` and capacity `0`. -/
theorem move_transfers (a b : SimpleVector T) :
    ((ctor_move a).1.Size = a.Size ∧ (ctor_move a).1.Capacity = a.Capacity ∧
      (ctor_move a).1.toList = a.toList ∧
      (ctor_move a).2.Size = 0 ∧ (ctor_move a).2.Capacity = 0) ∧
    ((b.assign_move a).1.Size = a.Size ∧ (b.assign_move a).1.Capacity = a.Capacity ∧
      (b.assign_move a).1.toList = a.toList ∧
      (b.assign_move a).2.Size = 0 ∧ (b.assign_move a).2.Capacity = 0) :=
  ⟨⟨rfl, rfl, rfl, rfl, rfl⟩, ⟨rfl, rfl, rfl, rfl, rfl⟩⟩

/-- C7: on a vector whose live elements are slots of its array, `At(i)` throws
`out_of_range` exactly when `i ≥ Size()`, and for `i < Size()` it returns the
element that the unchecked `operator[]` returns.  `At` assigns to no member,
so the vector is the same after a throw. -/
theorem At_checked (v : SimpleVector T) (i : Nat) (h : v.Size ≤ v.data_.slots) :
    (v.At i = some (.error .out_of_range) ↔ v.Size ≤ i) ∧
    (i < v.Size → ∃ x, v.At i = some (.ok x) ∧ v.Index i = some x) := by
  unfold At Size Index
  constructor
  · constructor
    · intro hat
      by_cases hi : i ≥ v.size_
      · exact hi
      · rw [if_neg hi] at hat
        cases hidx : v.data_.index i with
        | none => rw [hidx] at hat; cases hat
        | some y => rw [hidx] at hat; cases hat
    · intro hi
      rw [if_pos hi]
  · intro hi
    have hi2 : i < v.data_.data_.length := by
      unfold ArrayPtr.slots Size at h; omega
    refine ⟨v.data_.data_[i], ?_, ArrayPtr.index_of_lt v.data_ hi2⟩
    rw [if_neg (by omega), ArrayPtr.index_of_lt v.data_ hi2]
    rfl

/-- Witness of C7 at an index between the size and the capacity. -/
theorem At_checked_witness :
    threePushed.Size ≤ threePushed.data_.slots ∧
    ((threePushed.At 3 = some (.error .out_of_range) ↔ threePushed.Size ≤ 3) ∧
      (3 < threePushed.Size → ∃ x, threePushed.At 3 = some (.ok x) ∧
        threePushed.Index 3 = some x)) :=
  ⟨by decide, At_checked threePushed 3 (by decide)⟩

/-- C5: a run of `k` calls of `PushBack` on a default-constructed vector
returns a vector of size `k` whose capacity is at least `k`.  A further call
leaves the capacity as it is when there was room, and otherwise changes it
from `0` to `1` or from `c` to `2 * c`; after it the capacity is the smallest
power of two that is at least the number of calls. -/
theorem PushBack_capacity_doubling [Element T] (xs : List T) (x : T) :
    ∃ v v2 : SimpleVector T,
      (ctor_default : SimpleVector T).PushBackAll xs = some v ∧
      v.PushBack x = some v2 ∧
      (ctor_default : SimpleVector T).PushBackAll (xs ++ [x]) = some v2 ∧
      v.Size = xs.length ∧ v.Size ≤ v.Capacity ∧
      v2.Size = xs.length + 1 ∧ v2.Size ≤ v2.Capacity ∧
      ((v.Size < v.Capacity ∧ v2.Capacity = v.Capacity) ∨
        (v.Size = v.Capacity ∧ v.Capacity = 0 ∧ v2.Capacity = 1) ∨
        (v.Size = v.Capacity ∧ v.Capacity ≠ 0 ∧ v2.Capacity = 2 * v.Capacity)) ∧
      ∃ e, v2.Capacity = 2 ^ e ∧ xs.length + 1 ≤ 2 ^ e ∧
        ∀ j, xs.length + 1 ≤ 2 ^ j → 2 ^ e ≤ 2 ^ j := by
  obtain ⟨v, hv, hinv, hsz, -⟩ := PushBackAll_default xs
  obtain ⟨v2, hv2, hinv2, hsz2, hcap2⟩ := PushBackAll_default (xs ++ [x])
  have hstep : v.PushBack x = some v2 := by
    rw [PushBackAll_append, hv] at hv2
    change (v.PushBack x).bind (fun v1 => some v1) = some v2 at hv2
    cases hp : v.PushBack x with
    | none => rw [hp] at hv2; cases hv2
    | some w => rw [hp] at hv2; exact hv2
  obtain ⟨w, hw, -, -, hwcap, -, -⟩ := PushBack_spec v x hinv
  have hwv : w = v2 := Option.some.inj (hw.symm.trans hstep)
  subst hwv
  rw [List.length_append, List.length_singleton] at hsz2 hcap2
  refine ⟨v, w, hv, hstep, hv2, hsz, hinv.1, hsz2, hinv2.1, ?_, ?_⟩
  · unfold Size Capacity
    by_cases hfull : v.size_ = v.capacity_
    · by_cases h0 : v.capacity_ = 0
      · refine Or.inr (Or.inl ⟨hfull, h0, ?_⟩)
        rw [hwcap, if_pos hfull, if_pos h0]
      · refine Or.inr (Or.inr ⟨hfull, h0, ?_⟩)
        rw [hwcap, if_pos hfull, if_neg h0]
        omega
    · refine Or.inl ⟨?_, ?_⟩
      · have := hinv.1
        omega
      · rw [hwcap, if_neg hfull]
  · rcases hcap2 with ⟨h0, -⟩ | ⟨e, he, hle, hlt⟩
    · omega
    · refine ⟨e, he, hle, fun j hj => ?_⟩
      apply Nat.pow_le_pow_right (by decide)
      have h3 : 2 ^ e < 2 ^ (j + 1) := by
        rw [pow_succ]
        omega
      have h4 : e < j + 1 := (Nat.pow_lt_pow_iff_right (by decide)).mp h3
      omega

/-- C8: on a vector whose size is at most its capacity and whose live
elements are slots of its array, `Reserve(n)` returns; the
capacity becomes exactly `n` when `n` is larger than the capacity and stays
as it is otherwise; the size and every live element stay as they are, and the
result compares equal to the vector before the call. -/
theorem Reserve_keeps_elements [Element T] [DecidableEq T] (v : SimpleVector T) (n : Nat)
    (h : v.Size ≤ v.Capacity) (hs : v.Size ≤ v.data_.slots) :
    ∃ v2 : SimpleVector T, v.Reserve n = some v2 ∧
      (v.Capacity < n → v2.Capacity = n) ∧
      (n ≤ v.Capacity → v2.Capacity = v.Capacity) ∧
      v2.Size = v.Size ∧
      (∀ i, i < v.Size → ∃ y, v.Index i = some y ∧ v2.Index i = some y) ∧
      v2.toList = v.toList ∧
      v2.eq v = some true := by
  unfold Size Capacity at h
  unfold Size at hs
  have hidx : ∀ i, i < v.size_ → v.Index i = some (v.data_.data_[i]?.getD Element.init) ∧
      v.data_.data_[i]? = some (v.data_.data_[i]?.getD Element.init) := by
    intro i hi
    have hi2 : i < v.data_.data_.length := by unfold ArrayPtr.slots at hs; omega
    unfold Index ArrayPtr.index
    rw [List.getElem?_eq_getElem hi2]
    exact ⟨rfl, rfl⟩
  by_cases hgrow : v.capacity_ < n
  · obtain ⟨d, hd, hdlen, hget⟩ := Reserve_grow v n hs (by omega) hgrow
    have hl : (⟨v.size_, n, d⟩ : SimpleVector T).toList = v.toList :=
      take_congr_getElem? fun k hk => by
        show d.data_[k]? = _
        rw [hget k, if_pos hk]
    refine ⟨⟨v.size_, n, d⟩, hd, fun _ => rfl, fun hle => ?_, rfl, fun i hi => ?_, hl, ?_⟩
    · unfold Capacity at hle
      omega
    · refine ⟨_, (hidx i hi).1, ?_⟩
      have hi1 : i < v.size_ := hi
      show d.data_[i]? = _
      rw [hget i, if_pos hi1]
      exact (hidx i hi).2
    · rw [eq_spec _ _ (by show v.size_ ≤ d.data_.length; omega) hs, hl]
      simp
  · refine ⟨v, Reserve_noop v n (by omega), fun hlt => ?_, fun _ => rfl, rfl,
      fun i hi => ⟨_, (hidx i hi).1, (hidx i hi).1⟩, rfl, ?_⟩
    · unfold Capacity at hlt
      omega
    · rw [eq_spec _ _ hs hs]
      simp

/-- Witness of C8 on a vector with three elements and capacity four. -/
theorem Reserve_keeps_elements_witness :
    threePushed.Size ≤ threePushed.Capacity ∧ threePushed.Size ≤ threePushed.data_.slots ∧
    ∃ v2 : SimpleVector X, threePushed.Reserve 10 = some v2 ∧
      (threePushed.Capacity < 10 → v2.Capacity = 10) ∧
      (10 ≤ threePushed.Capacity → v2.Capacity = threePushed.Capacity) ∧
      v2.Size = threePushed.Size ∧
      (∀ i, i < threePushed.Size → ∃ y, threePushed.Index i = some y ∧ v2.Index i = some y) ∧
      v2.toList = threePushed.toList ∧
      v2.eq threePushed = some true :=
  ⟨by decide, by decide, Reserve_keeps_elements threePushed 10 (by decide) (by decide)⟩

/-- On a vector that satisfies the data model, `Resize(n)` returns a
vector of size `n`; the elements below both the old size and `n` are
unchanged; every element from the old size up to `n` is `T()`, whatever the
slot held before; the capacity is the larger of the old capacity and `n`. -/
theorem Resize_sets_size [Element T] (v : SimpleVector T) (n : Nat) (h : v.Inv) :
    ∃ v2 : SimpleVector T, v.Resize n = some v2 ∧
      v2.Size = n ∧
      (∀ i, i < min v.Size n → ∃ y, v.Index i = some y ∧ v2.Index i = some y) ∧
      (∀ i, v.Size ≤ i → i < n → v2.Index i = some Element.init) ∧
      v2.Capacity = max v.Capacity n := by
  obtain ⟨v2, hv2, -, hsz, hcap, hget⟩ := Resize_spec v n h
  refine ⟨v2, hv2, hsz, fun i hi => ?_, fun i h1 h2 => (hget i).2 ⟨h1, h2⟩, hcap⟩
  unfold Size at hi
  have hi1 : i < v.size_ := by omega
  have hi2 : i < v.data_.data_.length := by
    have := h.1; have := h.2; unfold ArrayPtr.slots at *; omega
  refine ⟨v.data_.data_[i], ArrayPtr.index_of_lt v.data_ hi2, ?_⟩
  show v2.data_.data_[i]? = _
  rw [(hget i).1 ⟨hi1, by omega⟩, List.getElem?_eq_getElem hi2]

/-- C10: the constructor taking the reserve hint `Reserve(n)` returns the
vector that `Reserve(n)` gives on a default-constructed vector: size `0` and
capacity `n`; a run of at most `n` calls of `PushBack` on it returns a vector
whose size is the number of calls and whose capacity is still `n`. -/
theorem ctor_reserve_no_reallocation [Element T] (n : Nat) (xs : List T)
    (h : xs.length ≤ n) :
    ∃ v0 v : SimpleVector T,
      ctor_reserve (SimpleVec.Reserve n) = some v0 ∧
      (ctor_default : SimpleVector T).Reserve n = some v0 ∧
      v0.Size = 0 ∧ v0.Capacity = n ∧
      v0.PushBackAll xs = some v ∧ v.Size = xs.length ∧ v.Capacity = n := by
  have h0 : ∃ v0 : SimpleVector T, (ctor_default : SimpleVector T).Reserve n = some v0 ∧
      v0.Inv ∧ v0.size_ = 0 ∧ v0.capacity_ = n := by
    by_cases hn : n = 0
    · subst hn
      exact ⟨ctor_default, Reserve_noop _ _ (Nat.le_refl _), ctor_default_inv, rfl, rfl⟩
    · obtain ⟨d, hd, hdlen, -⟩ := Reserve_grow (ctor_default : SimpleVector T) n
        (Nat.zero_le _) (Nat.zero_le _) (Nat.pos_of_ne_zero hn)
      exact ⟨_, hd, ⟨Nat.zero_le _, by show n ≤ d.data_.length; omega⟩, rfl, rfl⟩
  obtain ⟨v0, hv0, hinv0, hsz0, hcap0⟩ := h0
  obtain ⟨v, hv, -, hsz, hcap⟩ := PushBackAll_room xs v0 hinv0 (by omega)
  exact ⟨v0, v, hv0, hv0, hsz0, hcap0, hv, by unfold Size; omega, by unfold Capacity; omega⟩

/-- Witness of C10: capacity hint `10`, then ten calls of `PushBack`. -/
theorem ctor_reserve_no_reallocation_witness :
    tenValues.length ≤ 10 ∧
    ∃ v0 v : SimpleVector X,
      ctor_reserve (SimpleVec.Reserve 10) = some v0 ∧
      (ctor_default : SimpleVector X).Reserve 10 = some v0 ∧
      v0.Size = 0 ∧ v0.Capacity = 10 ∧
      v0.PushBackAll tenValues = some v ∧ v.Size = tenValues.length ∧ v.Capacity = 10 :=
  ⟨by decide, ctor_reserve_no_reallocation 10 tenValues (by decide)⟩

/-! ## Further lemmas on the operations -/

/-- The operator `<` compares the live elements with `lexLt`. -/
theorem lt_spec [LT T] [∀ x y : T, Decidable (x < y)] (a b : SimpleVector T)
    (ha : a.size_ ≤ a.data_.slots) (hb : b.size_ ≤ b.data_.slots) :
    a.lt b = some (lexLt a.toList b.toList) := by
  unfold lt std_lexicographical_compare
  rw [lexicographical_compare_loop_spec a.data_ b.data_ a.size_ 0 b.size_
    (by unfold ArrayPtr.slots at ha; omega) (by unfold ArrayPtr.slots at hb; omega)]
  simp [toList]

/-- The constructor from a list returns the vector whose array is the list. -/
theorem ctor_init_list_spec [Element T] (l : List T) :
    ctor_init_list l = some ⟨l.length, l.length, ⟨l⟩⟩ := by
  obtain ⟨q, hq, hlen, hget⟩ := copy_list_loop_spec l (ArrayPtr.alloc l.length) 0
    (by rw [ArrayPtr.length_alloc]; omega)
  have hql : q.data_ = l := by
    apply List.ext_getElem?
    intro k
    rw [hget k, ArrayPtr.getElem?_alloc]
    by_cases hk : k < l.length
    · rw [if_pos (by omega)]
      rfl
    · rw [if_neg (by omega), if_neg hk, List.getElem?_eq_none (by omega)]
  have hq2 : q = ⟨l⟩ := by
    cases q
    simp only [ArrayPtr.mk.injEq]
    exact hql
  unfold ctor_init_list
  rw [hq, hq2]
  rfl

/-- The copy constructor returns a vector with the size and the capacity
member of the source, whose array holds the live elements of the source and
nothing else. -/
theorem ctor_copy_spec [Element T] (o : SimpleVector T) (h : o.size_ ≤ o.data_.slots) :
    ctor_copy o = some ⟨o.size_, o.capacity_, ⟨o.toList⟩⟩ := by
  unfold ArrayPtr.slots at h
  obtain ⟨q, hq, hlen, hget⟩ := copy_loop_spec o.data_ o.size_ (ArrayPtr.alloc o.size_) 0 0
    (by omega) (by rw [ArrayPtr.length_alloc]; omega)
  have hql : q.data_ = o.toList := by
    apply List.ext_getElem?
    intro k
    rw [hget k, ArrayPtr.getElem?_alloc]
    unfold toList
    rw [List.getElem?_take]
    by_cases hk : k < o.size_
    · rw [if_pos (by omega), if_pos hk]
      simp
    · rw [if_neg (by omega), if_neg hk, if_neg hk]
  have hq2 : q = ⟨o.toList⟩ := by
    cases q
    simp only [ArrayPtr.mk.injEq]
    exact hql
  unfold ctor_copy std_copy
  rw [if_pos (Nat.zero_le _), Nat.sub_zero, hq, hq2]
  rfl

theorem Reserve_size_le [Element T] (v w : SimpleVector T) (n : Nat)
    (h : v.size_ ≤ v.capacity_) (hw : v.Reserve n = some w) :
    w.size_ = v.size_ ∧ v.capacity_ ≤ w.capacity_ ∧ n ≤ w.capacity_ ∧
      w.size_ ≤ w.capacity_ := by
  unfold Reserve at hw
  by_cases hn : n > v.capacity_
  · rw [if_pos hn] at hw
    cases hm : std_move v.data_ 0 v.size_ (ArrayPtr.alloc n) 0 with
    | none => rw [hm] at hw; cases hw
    | some r =>
      rw [hm] at hw
      have e := Option.some.inj hw
      subst e
      exact ⟨rfl, by show v.capacity_ ≤ n; omega, Nat.le_refl _, by show v.size_ ≤ n; omega⟩
  · rw [if_neg hn] at hw
    have e := Option.some.inj hw
    subst e
    exact ⟨rfl, Nat.le_refl _, by omega, h⟩

theorem grow_size_lt [Element T] (v v1 : SimpleVector T) (h : v.size_ ≤ v.capacity_)
    (hv1 : (if v.size_ = v.capacity_ then
        v.Reserve (if v.capacity_ = 0 then 1 else v.capacity_ * 2)
      else some v) = some v1) :
    v1.size_ < v1.capacity_ := by
  by_cases hfull : v.size_ = v.capacity_
  · rw [if_pos hfull] at hv1
    obtain ⟨h1, h2, h3, h4⟩ := Reserve_size_le v v1 _ h hv1
    have : v.capacity_ < (if v.capacity_ = 0 then 1 else v.capacity_ * 2) := by
      split <;> omega
    omega
  · rw [if_neg hfull] at hv1
    have e := Option.some.inj hv1
    subst e
    omega

theorem PushBack_size_le [Element T] (v w : SimpleVector T) (x : T)
    (h : v.size_ ≤ v.capacity_) (hw : v.PushBack x = some w) : w.size_ ≤ w.capacity_ := by
  unfold PushBack at hw
  cases hg : (if v.size_ = v.capacity_ then
      v.Reserve (if v.capacity_ = 0 then 1 else v.capacity_ * 2) else some v) with
  | none => rw [hg] at hw; cases hw
  | some v1 =>
    rw [hg] at hw
    simp only [Option.bind_eq_bind, Option.some_bind] at hw
    have hlt := grow_size_lt v v1 h hg
    cases ha : v1.data_.assign v1.size_ x with
    | none => rw [ha] at hw; cases hw
    | some d =>
      rw [ha] at hw
      have e := Option.some.inj hw
      subst e
      show v1.size_ + 1 ≤ v1.capacity_
      omega

theorem Insert_size_le [Element T] (v w : SimpleVector T) (k i : Nat) (x : T)
    (h : v.size_ ≤ v.capacity_) (hw : v.Insert k x = some (i, w)) :
    w.size_ ≤ w.capacity_ := by
  unfold Insert at hw
  cases hg : (if v.size_ = v.capacity_ then
      v.Reserve (if v.capacity_ = 0 then 1 else v.capacity_ * 2) else some v) with
  | none => rw [hg] at hw; cases hw
  | some v1 =>
    rw [hg] at hw
    simp only [Option.bind_eq_bind, Option.some_bind] at hw
    have hlt := grow_size_lt v v1 h hg
    cases hm : std_move_backward v1.data_ k v1.size_ (v1.size_ + 1) with
    | none => rw [hm] at hw; cases hw
    | some d1 =>
      rw [hm] at hw
      simp only [Option.some_bind] at hw
      cases ha : d1.assign k x with
      | none => rw [ha] at hw; cases hw
      | some d2 =>
        rw [ha] at hw
        have e := Option.some.inj hw
        injection e with e1 e2
        subst e2
        show v1.size_ + 1 ≤ v1.capacity_
        omega

theorem Erase_size_le [Element T] (v w : SimpleVector T) (k i : Nat)
    (h : v.size_ ≤ v.capacity_) (hw : v.Erase k = some (i, w)) : w.size_ ≤ w.capacity_ := by
  unfold Erase at hw
  cases hm : std_move_within v.data_ (k + 1) v.size_ k with
  | none => rw [hm] at hw; cases hw
  | some d =>
    rw [hm] at hw
    have e := Option.some.inj hw
    injection e with e1 e2
    subst e2
    show v.size_ - 1 ≤ v.capacity_
    omega

theorem Resize_size_le [Element T] (v w : SimpleVector T) (n : Nat)
    (h : v.size_ ≤ v.capacity_) (hw : v.Resize n = some w) : w.size_ ≤ w.capacity_ := by
  unfold Resize at hw
  cases hg : (if n > v.capacity_ then v.Reserve n else some v) with
  | none => rw [hg] at hw; cases hw
  | some v1 =>
    rw [hg] at hw
    simp only [Option.bind_eq_bind, Option.some_bind] at hw
    have hn : n ≤ v1.capacity_ := by
      by_cases hgt : n > v.capacity_
      · rw [if_pos hgt] at hg
        exact (Reserve_size_le v v1 n h hg).2.2.1
      · rw [if_neg hgt] at hg
        have e := Option.some.inj hg
        subst e
        omega
    cases hf : fill_loop (Element.init : T) v1.data_ v1.size_ (n - v1.size_) with
    | none => rw [hf] at hw; cases hw
    | some d =>
      rw [hf] at hw
      have e := Option.some.inj hw
      subst e
      exact hn

theorem ctor_copy_size_le [Element T] (o w : SimpleVector T)
    (h : o.size_ ≤ o.capacity_) (hw : ctor_copy o = some w) : w.size_ ≤ w.capacity_ := by
  unfold ctor_copy at hw
  cases hc : std_copy o.data_ 0 o.size_ (ArrayPtr.alloc o.size_) 0 with
  | none => rw [hc] at hw; cases hw
  | some d =>
    rw [hc] at hw
    have e := Option.some.inj hw
    subst e
    exact h

theorem ctor_fill_size_le [Element T] (n : Nat) (x : T) (w : SimpleVector T)
    (hw : ctor_fill n x = some w) : w.size_ ≤ w.capacity_ := by
  unfold ctor_fill at hw
  cases hc : std_fill (ArrayPtr.alloc n) 0 n x with
  | none => rw [hc] at hw; cases hw
  | some d =>
    rw [hc] at hw
    have e := Option.some.inj hw
    subst e
    exact Nat.le_refl _

theorem ctor_size_size_le [Element T] (n : Nat) (w : SimpleVector T)
    (hw : ctor_size n = some w) : w.size_ ≤ w.capacity_ := by
  unfold ctor_size at hw
  cases hc : std_fill (ArrayPtr.alloc n) 0 n (Element.init : T) with
  | none => rw [hc] at hw; cases hw
  | some d =>
    rw [hc] at hw
    have e := Option.some.inj hw
    subst e
    exact Nat.le_refl _

/-- In every reachable state the size is at most the capacity. -/
theorem Reachable_size_le [Element T] (v : SimpleVector T) (h : Reachable v) :
    v.size_ ≤ v.capacity_ := by
  induction h with
  | default => exact Nat.le_refl _
  | sized n v hv => exact ctor_size_size_le n v hv
  | filled n x v hv => exact ctor_fill_size_le n x v hv
  | init_list l v hv =>
    rw [ctor_init_list_spec] at hv
    have e := Option.some.inj hv
    subst e
    exact Nat.le_refl _
  | reserve_hint n v hv =>
    exact (Reserve_size_le ctor_default v n (Nat.le_refl _) hv).2.2.2
  | copy o v _ hv ih => exact ctor_copy_size_le o v ih hv
  | move_target o _ ih => exact ih
  | move_source o _ _ => exact Nat.le_refl _
  | copy_assign v o w _ _ hw _ iho =>
    unfold assign_copy at hw
    cases hc : ctor_copy o with
    | none => rw [hc] at hw; cases hw
    | some t =>
      rw [hc] at hw
      have e := Option.some.inj hw
      subst e
      exact ctor_copy_size_le o t iho hc
  | move_assign_target v o _ _ _ iho => exact iho
  | move_assign_source v o _ _ _ _ => exact Nat.le_refl _
  | reserve v n w _ hw ih => exact (Reserve_size_le v w n ih hw).2.2.2
  | resize v n w _ hw ih => exact Resize_size_le v w n ih hw
  | push_back v x w _ hw ih => exact PushBack_size_le v w x ih hw
  | insert v k x w _ hw ih => exact Insert_size_le v w k k x ih hw
  | pop_back v _ ih =>
    unfold PopBack
    split
    · show v.size_ - 1 ≤ v.capacity_
      omega
    · exact ih
  | erase v k w _ hw ih => exact Erase_size_le v w k k ih hw
  | clear v _ _ => exact Nat.zero_le _
  | swap_left v o _ _ _ iho => exact iho
  | swap_right v o _ _ ihv _ => exact ihv

theorem Reachable_PushBackAll [Element T] (xs : List T) : ∀ v w : SimpleVector T,
    Reachable v → v.PushBackAll xs = some w → Reachable w := by
  induction xs with
  | nil =>
    intro v w hv hw
    have e : v = w := Option.some.inj hw
    subst e
    exact hv
  | cons x xs ih =>
    intro v w hv hw
    change (v.PushBack x).bind (fun v1 => v1.PushBackAll xs) = some w at hw
    cases hp : v.PushBack x with
    | none => rw [hp] at hw; cases hw
    | some v1 =>
      rw [hp] at hw
      exact ih v1 w (Reachable.push_back v x v1 hv hp) hw

theorem toList_eq_iff (a b : SimpleVector T) (ha : a.size_ ≤ a.data_.slots)
    (hb : b.size_ ≤ b.data_.slots) :
    a.toList = b.toList ↔
      a.size_ = b.size_ ∧ ∀ i, i < a.size_ → a.Index i = b.Index i := by
  constructor
  · intro h
    have hsz : a.size_ = b.size_ := by
      rw [← length_toList a ha, ← length_toList b hb, h]
    refine ⟨hsz, fun i hi => ?_⟩
    show a.data_.data_[i]? = b.data_.data_[i]?
    rw [← getElem?_toList a i hi, ← getElem?_toList b i (by omega), h]
  · rintro ⟨hsz, hi⟩
    unfold toList
    rw [← hsz]
    exact take_congr_getElem? hi

theorem toList_eq_of_Index (a a2 : SimpleVector T) (ha : a.size_ ≤ a.data_.slots)
    (hs : a2.size_ = a.size_) (hi : ∀ i, i < a.size_ → a2.Index i = a.Index i) :
    a2.size_ ≤ a2.data_.slots ∧ a2.toList = a.toList := by
  have hslots : a2.size_ ≤ a2.data_.slots := by
    unfold ArrayPtr.slots at *
    by_cases h0 : a.size_ = 0
    · omega
    · have h1 := hi (a.size_ - 1) (by omega)
      have h2 : a.size_ - 1 < a.data_.data_.length := by omega
      change a2.data_.data_[a.size_ - 1]? = a.data_.data_[a.size_ - 1]? at h1
      rw [List.getElem?_eq_getElem h2] at h1
      have h3 : a.size_ - 1 < a2.data_.data_.length := by
        by_contra hc
        rw [List.getElem?_eq_none (by omega)] at h1
        cases h1
      omega
  exact ⟨hslots, ((toList_eq_iff a2 a hslots ha).mpr ⟨hs, fun i h => hi i (by omega)⟩)⟩

/-! ## The claims, continued -/

/-- On a vector that satisfies the data model, `Insert` at an index
`k ≤ Size()` followed by `Erase` at the index `k` returns a vector that
`operator==` finds equal to the original: same size, same elements in the same
order, with and without a reallocation in `Insert`. -/
theorem Insert_then_Erase [Element T] [DecidableEq T] (v : SimpleVector T) (k : Nat)
    (x : T) (h : v.Inv) (hk : k ≤ v.Size) :
    ∃ v2 v3 : SimpleVector T, v.Insert k x = some (k, v2) ∧ v2.Erase k = some (k, v3) ∧
      v3.eq v = some true ∧ v3.Size = v.Size ∧ v3.toList = v.toList := by
  unfold Size at hk
  obtain ⟨v2, hv2, hinv2, hsz2, -, hget2⟩ := Insert_spec v k x h hk
  have hs2 : v2.size_ ≤ v2.data_.slots := by have := hinv2.1; have := hinv2.2; omega
  obtain ⟨d, hd, hdlen, hget3⟩ := Erase_spec v2 k hs2 (by omega)
  have hs : v.size_ ≤ v.data_.slots := by have := h.1; have := h.2; omega
  have hl : (⟨v2.size_ - 1, v2.capacity_, d⟩ : SimpleVector T).toList = v.toList := by
    unfold toList
    have e : v2.size_ - 1 = v.size_ := by omega
    show d.data_.take (v2.size_ - 1) = _
    rw [e]
    apply take_congr_getElem?
    intro j hj
    by_cases hjk : j < k
    · rw [(hget3 j).1 hjk, (hget2 j).1 hjk]
    · rw [(hget3 j).2 ⟨by omega, by omega⟩, (hget2 (j + 1)).2.2 ⟨by omega, by omega⟩]
      rfl
  refine ⟨v2, _, hv2, hd, ?_, ?_, hl⟩
  · rw [eq_spec _ _ (by unfold ArrayPtr.slots at *; show v2.size_ - 1 ≤ d.data_.length; omega) hs,
      hl]
    simp
  · show v2.size_ - 1 = v.size_
    omega

/-- C12: for two vectors whose live elements are slots of their arrays,
`a == b` returns, and it is true exactly when the sizes are equal and the
elements are equal index by index below the size; vectors with the same sizes
and the same live elements give the same result, whatever their capacities
and the contents of their other slots; `a != b` is the negation; two vectors
built from the same list compare equal. -/
theorem eq_compares_live [Element T] [DecidableEq T] (a b : SimpleVector T)
    (ha : a.Size ≤ a.data_.slots) (hb : b.Size ≤ b.data_.slots) :
    ∃ r : Bool, a.eq b = some r ∧ a.ne b = some (!r) ∧
      (r = true ↔ a.Size = b.Size ∧ ∀ i, i < a.Size → a.Index i = b.Index i) ∧
      (∀ a2 b2 : SimpleVector T, a2.Size = a.Size → b2.Size = b.Size →
        (∀ i, i < a.Size → a2.Index i = a.Index i) →
        (∀ i, i < b.Size → b2.Index i = b.Index i) →
        a2.eq b2 = some r) ∧
      (∀ l : List T, ∃ v w : SimpleVector T, ctor_init_list l = some v ∧
        ctor_init_list l = some w ∧ v.eq w = some true) := by
  have he := eq_spec a b ha hb
  refine ⟨decide (a.toList = b.toList), he, ?_, ?_, ?_, ?_⟩
  · unfold ne
    rw [he]
    rfl
  · rw [decide_eq_true_iff]
    exact toList_eq_iff a b ha hb
  · intro a2 b2 hsa hsb hia hib
    obtain ⟨ha2, hla⟩ := toList_eq_of_Index a a2 ha hsa hia
    obtain ⟨hb2, hlb⟩ := toList_eq_of_Index b b2 hb hsb hib
    rw [eq_spec a2 b2 ha2 hb2, hla, hlb]
  · intro l
    refine ⟨_, _, ctor_init_list_spec l, ctor_init_list_spec l, ?_⟩
    rw [eq_spec _ _ (Nat.le_refl _) (Nat.le_refl _)]
    simp

/-- Witness of C12 on two vectors with the same live element and different
capacities and dead slots. -/
theorem eq_compares_live_witness :
    twoPopped.Size ≤ twoPopped.data_.slots ∧
    (⟨1, 1, ⟨[⟨0⟩]⟩⟩ : SimpleVector X).Size ≤ (⟨1, 1, ⟨[⟨0⟩]⟩⟩ : SimpleVector X).data_.slots ∧
    ∃ r : Bool, twoPopped.eq ⟨1, 1, ⟨[⟨0⟩]⟩⟩ = some r ∧ twoPopped.ne ⟨1, 1, ⟨[⟨0⟩]⟩⟩ = some (!r) ∧
      r = true :=
  ⟨by decide, by decide,
    (eq_compares_live twoPopped ⟨1, 1, ⟨[⟨0⟩]⟩⟩ (by decide) (by decide)).imp
      fun r hr => ⟨hr.1, hr.2.1, Option.some.inj (hr.1.symm.trans (by decide))⟩⟩

/-- C13: for two vectors whose live elements are slots of their arrays,
`a < b` returns, and it is true exactly when either at some index below both
sizes the element of `a` is less than the element of `b` and all earlier
elements are equivalent, or `a` is shorter than `b` and equivalent to the
beginning of `b`. -/
theorem lt_lexicographic [LT T] [∀ x y : T, Decidable (x < y)] (a b : SimpleVector T)
    (ha : a.Size ≤ a.data_.slots) (hb : b.Size ≤ b.data_.slots) :
    ∃ r : Bool, a.lt b = some r ∧
      (r = true ↔ LexLess a.Index b.Index a.Size b.Size) := by
  refine ⟨_, lt_spec a b ha hb, ?_⟩
  rw [lexLt_iff_LexLess, length_toList a ha, length_toList b hb]
  constructor
  · exact LexLess_congr (fun i hi => getElem?_toList a i hi) (fun i hi => getElem?_toList b i hi)
  · exact LexLess_congr (fun i hi => (getElem?_toList a i hi).symm)
      (fun i hi => (getElem?_toList b i hi).symm)

/-- Witness of C13: `[1, 2] < [1, 3]` and `[1, 2] < [1, 2, 3]` are true, the
reverse comparisons are false. -/
theorem lt_lexicographic_witness :
    oneTwo.Size ≤ oneTwo.data_.slots ∧ oneThree.Size ≤ oneThree.data_.slots ∧
    (∃ r : Bool, oneTwo.lt oneThree = some r ∧
      (r = true ↔ LexLess oneTwo.Index oneThree.Index oneTwo.Size oneThree.Size)) ∧
    oneTwo.lt oneThree = some true ∧ oneTwo.lt oneTwoThree = some true ∧
    oneThree.lt oneTwo = some false ∧ oneTwoThree.lt oneTwo = some false :=
  ⟨by decide, by decide, lt_lexicographic oneTwo oneThree (by decide) (by decide),
    by decide, by decide, by decide, by decide⟩

/-- C15: the constructor from a list `l` returns a vector whose size and
capacity are the length of `l` and whose element at every index `i` below the
length is the `i`-th element of `l`: reading it back gives `l`. -/
theorem ctor_init_list_roundtrip [Element T] (l : List T) :
    ∃ v : SimpleVector T, ctor_init_list l = some v ∧
      v.Size = l.length ∧ v.Capacity = l.length ∧
      (∀ i, i < l.length → v.Index i = l[i]?) ∧
      v.toList = l :=
  ⟨⟨l.length, l.length, ⟨l⟩⟩, ctor_init_list_spec l, rfl, rfl, fun _ _ => rfl,
    List.take_length l⟩

/-- C16: `PopBack` is defined on every vector and never touches the array or
the capacity; on an empty vector it changes nothing; on a non-empty vector
the size decreases by exactly one and the live elements are the old ones
without the last. -/
theorem PopBack_drops_last (v : SimpleVector T) :
    v.PopBack.Capacity = v.Capacity ∧
    (v.Size = 0 → v.PopBack = v) ∧
    (0 < v.Size → v.PopBack.Size + 1 = v.Size) ∧
    (∀ i, v.PopBack.Index i = v.Index i) ∧
    (v.Size ≤ v.data_.slots → v.PopBack.toList = v.toList.dropLast) := by
  unfold PopBack Size Capacity
  by_cases h0 : v.size_ > 0
  · rw [if_pos h0]
    refine ⟨rfl, fun h => by omega, fun _ => ?_, fun _ => rfl, fun hs => ?_⟩
    · show v.size_ - 1 + 1 = v.size_
      omega
    · rw [List.dropLast_eq_take, length_toList v hs]
      show v.data_.data_.take (v.size_ - 1) = (v.data_.data_.take v.size_).take (v.size_ - 1)
      rw [List.take_take, Nat.min_eq_left (by omega)]
  · rw [if_neg h0]
    refine ⟨rfl, fun _ => rfl, fun h => by omega, fun _ => rfl, fun hs => ?_⟩
    have hz : v.size_ = 0 := by omega
    unfold toList
    rw [hz]
    rfl

/-- The member `Clear` sets the size to `0`, so `IsEmpty` is true, and leaves the
capacity as it was; when the capacity is at most the number of allocated
slots, a run of at most `Capacity()` calls of `PushBack` on the cleared vector
returns and leaves the capacity unchanged. -/
theorem Clear_keeps_capacity [Element T] (v : SimpleVector T) :
    v.Clear.Size = 0 ∧ v.Clear.IsEmpty = true ∧ v.Clear.Capacity = v.Capacity ∧
    (v.Capacity ≤ v.data_.slots → ∀ xs : List T, xs.length ≤ v.Capacity →
      ∃ w : SimpleVector T, v.Clear.PushBackAll xs = some w ∧
        w.Size = xs.length ∧ w.Capacity = v.Capacity) := by
  refine ⟨rfl, rfl, rfl, fun hc xs hx => ?_⟩
  have hinv : v.Clear.Inv := ⟨Nat.zero_le _, hc⟩
  obtain ⟨w, hw, -, hsz, hcap⟩ := PushBackAll_room xs v.Clear hinv
    (by show 0 + xs.length ≤ v.capacity_; unfold Capacity at hx; omega)
  refine ⟨w, hw, ?_, hcap⟩
  show w.size_ = xs.length
  rw [hsz]
  show 0 + xs.length = xs.length
  omega

/-- C18 fails on the code: the copy of the vector left by three calls of
`PushBack` on a default-constructed vector is reachable, its capacity is four
and its array has three slots; the slot at the index `Size()`, which
`PushBack` and `Insert` write because the size is below the capacity, is not
a slot of the array. -/
theorem Reachable_capacity_exceeds_slots :
    Reachable copyOfThree ∧
    copyOfThree.data_.slots < copyOfThree.Capacity ∧
    copyOfThree.Size < copyOfThree.Capacity ∧
    copyOfThree.Index copyOfThree.Size = none ∧
    copyOfThree.PushBack ⟨9⟩ = none ∧
    copyOfThree.Insert 0 ⟨9⟩ = none :=
  ⟨Reachable.copy threePushed copyOfThree
      (Reachable_PushBackAll _ _ _ Reachable.default threePushed_reachable) (by decide),
    by decide, by decide, by decide, by decide, by decide⟩

/-- C19: in every state reached from a constructor through the public
operations the size is at most the capacity, for both vectors of an operation
on two; and on such a state that satisfies the data model every operation
used within its precondition returns, again with the size at most the
capacity. -/
theorem Size_le_Capacity_invariant [Element T] (v : SimpleVector T) (h : Reachable v) :
    v.Size ≤ v.Capacity ∧
    (v.Inv →
      (∀ n, ∃ w : SimpleVector T, v.Reserve n = some w ∧ w.Size ≤ w.Capacity) ∧
      (∀ n, ∃ w : SimpleVector T, v.Resize n = some w ∧ w.Size ≤ w.Capacity) ∧
      (∀ x, ∃ w : SimpleVector T, v.PushBack x = some w ∧ w.Size ≤ w.Capacity) ∧
      (∀ k x, k ≤ v.Size →
        ∃ w : SimpleVector T, v.Insert k x = some (k, w) ∧ w.Size ≤ w.Capacity) ∧
      (∀ k, k < v.Size →
        ∃ w : SimpleVector T, v.Erase k = some (k, w) ∧ w.Size ≤ w.Capacity) ∧
      (∃ w : SimpleVector T, ctor_copy v = some w ∧ w.Size ≤ w.Capacity) ∧
      (∀ o : SimpleVector T, ∃ w : SimpleVector T,
        o.assign_copy v = some w ∧ w.Size ≤ w.Capacity)) := by
  have hle : v.size_ ≤ v.capacity_ := Reachable_size_le v h
  refine ⟨hle, fun hinv => ?_⟩
  have hs : v.size_ ≤ v.data_.slots := by have := hinv.1; have := hinv.2; omega
  refine ⟨fun n => ?_, fun n => ?_, fun x => ?_, fun k x hk => ?_, fun k hk => ?_, ?_,
    fun o => ?_⟩
  · by_cases hn : v.capacity_ < n
    · obtain ⟨d, hd, -, -⟩ := Reserve_grow v n hs (by omega) hn
      exact ⟨_, hd, (Reserve_size_le v _ n hle hd).2.2.2⟩
    · exact ⟨v, Reserve_noop v n (by omega), hle⟩
  · obtain ⟨w, hw, hwinv, -⟩ := Resize_spec v n hinv
    exact ⟨w, hw, hwinv.1⟩
  · obtain ⟨w, hw, hwinv, -⟩ := PushBack_spec v x hinv
    exact ⟨w, hw, hwinv.1⟩
  · obtain ⟨w, hw, hwinv, -⟩ := Insert_spec v k x hinv hk
    exact ⟨w, hw, hwinv.1⟩
  · obtain ⟨d, hd, -, -⟩ := Erase_spec v k hs hk
    exact ⟨_, hd, Erase_size_le v _ k k hle hd⟩
  · exact ⟨_, ctor_copy_spec v hs, hle⟩
  · refine ⟨⟨v.size_, v.capacity_, ⟨v.toList⟩⟩, ?_, hle⟩
    unfold assign_copy
    rw [ctor_copy_spec v hs]
    rfl

/-- Witness of C19 on the vector left by three calls of `PushBack`. -/
theorem Size_le_Capacity_invariant_witness :
    Reachable threePushed ∧ threePushed.Inv ∧
    (threePushed.Size ≤ threePushed.Capacity ∧
    (threePushed.Inv →
      (∀ n, ∃ w : SimpleVector X, threePushed.Reserve n = some w ∧ w.Size ≤ w.Capacity) ∧
      (∀ n, ∃ w : SimpleVector X, threePushed.Resize n = some w ∧ w.Size ≤ w.Capacity) ∧
      (∀ x, ∃ w : SimpleVector X, threePushed.PushBack x = some w ∧ w.Size ≤ w.Capacity) ∧
      (∀ k x, k ≤ threePushed.Size →
        ∃ w : SimpleVector X, threePushed.Insert k x = some (k, w) ∧ w.Size ≤ w.Capacity) ∧
      (∀ k, k < threePushed.Size →
        ∃ w : SimpleVector X, threePushed.Erase k = some (k, w) ∧ w.Size ≤ w.Capacity) ∧
      (∃ w : SimpleVector X, ctor_copy threePushed = some w ∧ w.Size ≤ w.Capacity) ∧
      (∀ o : SimpleVector X, ∃ w : SimpleVector X,
        o.assign_copy threePushed = some w ∧ w.Size ≤ w.Capacity))) :=
  ⟨Reachable_PushBackAll _ _ _ Reachable.default threePushed_reachable, by decide,
    Size_le_Capacity_invariant threePushed
      (Reachable_PushBackAll _ _ _ Reachable.default threePushed_reachable)⟩

/-- C20: for an element type with a linear order and two vectors whose live
elements are slots of their arrays, the six operators return, and exactly one
of `a < b`, `a == b` and `a > b` is true; `a > b` is `b < a`; `a != b` is the
negation of `a == b`; `a <= b` is true exactly when `b < a` is false, and
`a >= b` exactly when `a < b` is false. -/
theorem relational_total_order [LinearOrder T] (a b : SimpleVector T)
    (ha : a.Size ≤ a.data_.slots) (hb : b.Size ≤ b.data_.slots) :
    ∃ l e g : Bool, a.lt b = some l ∧ a.eq b = some e ∧ a.gt b = some g ∧
      ((l = true ∧ e = false ∧ g = false) ∨ (l = false ∧ e = true ∧ g = false) ∨
        (l = false ∧ e = false ∧ g = true)) ∧
      a.gt b = b.lt a ∧ a.ne b = some (!e) ∧
      a.le b = some (!g) ∧ a.ge b = some (!l) := by
  have hl := lt_spec a b ha hb
  have hg := lt_spec b a hb ha
  have he := eq_spec a b ha hb
  have hne : a.ne b = some (!decide (a.toList = b.toList)) := by
    unfold ne
    rw [he]
    rfl
  refine ⟨lexLt a.toList b.toList, decide (a.toList = b.toList), lexLt b.toList a.toList,
    hl, he, hg, ?_, rfl, hne, ?_, ?_⟩
  · rcases lexLt_trichotomy a.toList b.toList with ⟨h1, h2, h3⟩ | ⟨h1, h2, h3⟩ | ⟨h1, h2, h3⟩
    · exact Or.inl ⟨h1, by simp [h2], h3⟩
    · exact Or.inr (Or.inl ⟨h1, by simp [h2], h3⟩)
    · exact Or.inr (Or.inr ⟨h1, by simp [h2], h3⟩)
  · unfold le
    rw [hl, he]
    rcases lexLt_trichotomy a.toList b.toList with ⟨h1, h2, h3⟩ | ⟨h1, h2, h3⟩ | ⟨h1, h2, h3⟩
    · rw [h1, h3]; simp
    · rw [h1, h3]; simp [h2]
    · rw [h1, h3]; simp [h2]
  · unfold ge gt
    rw [hg, he]
    rcases lexLt_trichotomy a.toList b.toList with ⟨h1, h2, h3⟩ | ⟨h1, h2, h3⟩ | ⟨h1, h2, h3⟩
    · rw [h1, h3]; simp [h2]
    · rw [h1, h3]; simp [h2]
    · rw [h1, h3]; simp

/-- Witness of C20 on the vectors `[1, 2]` and `[1, 3]` of `int`. -/
theorem relational_total_order_witness :
    oneTwo.Size ≤ oneTwo.data_.slots ∧ oneThree.Size ≤ oneThree.data_.slots ∧
    ∃ l e g : Bool, oneTwo.lt oneThree = some l ∧ oneTwo.eq oneThree = some e ∧
      oneTwo.gt oneThree = some g ∧
      ((l = true ∧ e = false ∧ g = false) ∨ (l = false ∧ e = true ∧ g = false) ∨
        (l = false ∧ e = false ∧ g = true)) ∧
      oneTwo.gt oneThree = oneThree.lt oneTwo ∧ oneTwo.ne oneThree = some (!e) ∧
      oneTwo.le oneThree = some (!g) ∧ oneTwo.ge oneThree = some (!l) :=
  ⟨by decide, by decide, relational_total_order oneTwo oneThree (by decide) (by decide)⟩

/-! ## The copy of a vector with spare capacity -/

theorem pushedThree_built [Element T] (x y z : T) :
    (ctor_default : SimpleVector T).PushBackAll [x, y, z] = some (pushedThree x y z) :=
  rfl

theorem copiedThree_built [Element T] (x y z : T) :
    ctor_copy (pushedThree x y z) = some (copiedThree x y z) :=
  rfl

/-- The copy of the vector left by three calls of `PushBack` is a state a
program can build, for every element type. -/
theorem Reachable_copiedThree [Element T] (x y z : T) : Reachable (copiedThree x y z) :=
  Reachable.copy (pushedThree x y z) (copiedThree x y z)
    (Reachable_PushBackAll _ _ _ Reachable.default (pushedThree_built x y z))
    (copiedThree_built x y z)

/-- C1 fails on the code: for every element type, the copy of the vector left
by three calls of `PushBack` is reachable, has size three below capacity four,
and `PushBack` on it is undefined: it skips `Reserve` and writes the slot 3 of
an array of three slots, where the claim says the elements become the old ones
followed by the new value. -/
theorem PushBack_on_copy_undefined [Element T] (x y z w : T) :
    (ctor_default : SimpleVector T).PushBackAll [x, y, z] = some (pushedThree x y z) ∧
    ctor_copy (pushedThree x y z) = some (copiedThree x y z) ∧
    Reachable (copiedThree x y z) ∧
    (copiedThree x y z).toList = [x, y, z] ∧
    (copiedThree x y z).Size < (copiedThree x y z).Capacity ∧
    (copiedThree x y z).data_.assign (copiedThree x y z).Size w = none ∧
    (copiedThree x y z).PushBack w = none :=
  ⟨rfl, rfl, Reachable_copiedThree x y z, rfl, Nat.lt_succ_self 3, rfl, rfl⟩

/-- C2 fails on the code: for every element type, `Insert` on the reachable
copy of the vector left by three calls of `PushBack` is undefined at every
index: the shift to the right moves the last element to the slot 3 of an array
of three slots (or, at the end position, the value is written there). -/
theorem Insert_on_copy_undefined [Element T] (x y z w : T) (k : Nat) :
    Reachable (copiedThree x y z) ∧
    (copiedThree x y z).Size < (copiedThree x y z).Capacity ∧
    (copiedThree x y z).Insert k w = none := by
  refine ⟨Reachable_copiedThree x y z, Nat.lt_succ_self 3, ?_⟩
  by_cases hk : k ≤ 3
  · have h4 : k = 0 ∨ k = 1 ∨ k = 2 ∨ k = 3 := by omega
    rcases h4 with h | h | h | h <;> subst h <;> rfl
  · simp [Insert, copiedThree, std_move_backward, hk]

/-- C9 fails on the code: for every element type, `Resize(4)` on the
reachable copy of the vector left by three calls of `PushBack` is undefined:
the new size is not above the capacity four, so `Reserve` is skipped and
`T()` is written to the slot 3 of an array of three slots. -/
theorem Resize_on_copy_undefined [Element T] (x y z : T) :
    Reachable (copiedThree x y z) ∧
    (copiedThree x y z).Size = 3 ∧ (copiedThree x y z).Capacity = 4 ∧
    (copiedThree x y z).data_.slots = 3 ∧
    (copiedThree x y z).Resize 4 = none :=
  ⟨Reachable_copiedThree x y z, rfl, rfl, rfl, rfl⟩

/-- C11 fails on the code: for every element type and every index `k`,
`Insert` at `k` followed by `Erase` at `k` on the reachable copy of the vector
left by three calls of `PushBack` is undefined, because the `Insert` step
writes outside the array of three slots; no vector equal to the original is
produced. -/
theorem Insert_then_Erase_on_copy_undefined [Element T] (x y z w : T) (k : Nat) :
    Reachable (copiedThree x y z) ∧ (copiedThree x y z).Size = 3 ∧
    ((copiedThree x y z).Insert k w).bind (fun r => r.2.Erase k) = none := by
  refine ⟨Reachable_copiedThree x y z, rfl, ?_⟩
  have h : (copiedThree x y z).Insert k w = none := by
    by_cases hk : k ≤ 3
    · have h4 : k = 0 ∨ k = 1 ∨ k = 2 ∨ k = 3 := by omega
      rcases h4 with h | h | h | h <;> subst h <;> rfl
    · simp [Insert, copiedThree, std_move_backward, hk]
  rw [h]
  rfl

/-- C17 fails on the code: for every element type, the reachable copy of the
vector left by three calls of `PushBack`, once cleared, has size zero and
capacity four, takes three calls of `PushBack`, and the fourth is undefined:
it writes the slot 3 of an array of three slots. -/
theorem Clear_on_copy_then_PushBack_undefined [Element T] (x y z w1 w2 w3 w4 : T) :
    Reachable (copiedThree x y z).Clear ∧
    (copiedThree x y z).Clear.Size = 0 ∧ (copiedThree x y z).Clear.Capacity = 4 ∧
    (copiedThree x y z).Clear.PushBackAll [w1, w2, w3] = some ⟨3, 4, ⟨[w1, w2, w3]⟩⟩ ∧
    (copiedThree x y z).Clear.PushBackAll [w1, w2, w3, w4] = none :=
  ⟨Reachable.clear _ (Reachable_copiedThree x y z), rfl, rfl, rfl, rfl⟩

end SimpleVector

/-! ## Frame lemmas for the heap -/

namespace Heap

variable {T : Type}

end Heap

namespace VectorObj

variable {T : Type}

end VectorObj

/-! ## Copy assignment in memory -/

namespace Heap

variable {T : Type}

end Heap

namespace SimpleVector

variable {T : Type}

end SimpleVector

namespace Store

variable {T : Type}

end Store

end SimpleVec
